import Mathlib

/-!
Shallow embedding of `scripts/update_frontier.py` and
`scripts/ai_summarize_deepseek.py`.

Conventions of the embedding:
* Python `str` is embedded as `List Char`.
* `datetime.date` is embedded as `Int`, counting days (so `d2 - d1` is
  `(d2 - d1).days`). The script stores dates as `isoformat` strings and
  compares those strings lexicographically; for `YYYY-MM-DD` strings that
  order coincides with the chronological order of the dates, so string
  comparisons on `published_at` are embedded as `Int` comparisons.
* `str.lower` is embedded on its ASCII fragment (`lowerChar`); the
  non-ASCII characters appearing in the configuration are unaffected by
  lowercasing in Python as well.
* fallible or absent values are `Option`.
-/

namespace Frontier

/-- Characters matched by the regex class `\s` (ASCII fragment). -/
def isWs (c : Char) : Bool :=
  c == ' ' || c == '\t' || c == '\n' || c == '\r' || c == Char.ofNat 11 || c == Char.ofNat 12

/-- Embeds `re.sub(r"<[^>]+>", " ", s)` from `clean_text`, as a single left-to-right
scan. With mode `none` characters pass through, and a `<` opens a buffered
candidate tag. With mode `some buf` the scanner is inside a candidate tag
whose text so far is `buf` (in reverse); the next `>` closes it — a tag with
a non-empty body (`<`, one or more non-`>` characters, then `>`, exactly the
regex) collapses to one space, while an empty body (`<>`) re-emits the
buffered text verbatim, and a never-closed candidate is emitted verbatim at
the end of the string (the regex matches at neither). -/
def stripTagsGo : Option (List Char) → List Char → List Char
  | none, [] => []
  | none, c :: rest =>
    if c = '<' then stripTagsGo (some ['<']) rest else c :: stripTagsGo none rest
  | some buf, [] => buf.reverse
  | some buf, d :: rest =>
    if d = '>' then
      if 2 ≤ buf.length then ' ' :: stripTagsGo none rest
      else buf.reverse ++ '>' :: stripTagsGo none rest
    else stripTagsGo (some (d :: buf)) rest

/-- Embeds `re.sub(r"<[^>]+>", " ", s)`. -/
def stripTags (l : List Char) : List Char := stripTagsGo none l

/-- Embeds `re.sub(r"\s+", " ", s)`, as a single left-to-right scan: `inRun` says
whether the scanner is inside a whitespace run whose single replacement
space has already been emitted (each maximal whitespace run emits exactly
one space, at its first character). -/
def subWsAux (inRun : Bool) : List Char → List Char
  | [] => []
  | c :: rest =>
    if isWs c then
      if inRun then subWsAux true rest else ' ' :: subWsAux true rest
    else c :: subWsAux false rest

/-- Embeds `re.sub(r"\s+", " ", s)`: every maximal whitespace run becomes one space. -/
def subWs (l : List Char) : List Char := subWsAux false l

/-- Python `str.strip()`: drop leading and trailing whitespace. -/
def pyStrip (l : List Char) : List Char :=
  ((l.dropWhile isWs).reverse.dropWhile isWs).reverse

/-- Python `str.rstrip()`: drop trailing whitespace. -/
def pyRstrip (l : List Char) : List Char :=
  (l.reverse.dropWhile isWs).reverse

/-- Embeds `clean_text`: strip HTML tags, collapse whitespace runs to single spaces,
trim. (`if not s: return ""` is the behaviour of the pipeline on `[]`.) -/
def clean_text (s : List Char) : List Char :=
  pyStrip (subWs (stripTags s))

/-- Embeds `truncate(s, n)`: clean, and cut to `n` characters plus an ellipsis when longer. -/
def truncate (s : List Char) (n : Nat) : List Char :=
  let s := clean_text s
  if s.length ≤ n then s else pyRstrip (s.take n) ++ ['…']

/-- Python `str.lower()`, ASCII fragment. -/
def lowerChar (c : Char) : Char :=
  if 'A' ≤ c ∧ c ≤ 'Z' then Char.ofNat (c.toNat + 32) else c

/-- The character class stripped by `normalize_title`:
`[\[\]\(\)\{\}<>:;,.!?\"'` + backtick + `~@#$%^&*_=+\\|/]`.
(The quote, backtick, brace and backslash characters are written via their
code points.) -/
def punctChars : List Char :=
  ['[', ']', '(', ')', Char.ofNat 123, Char.ofNat 125, '<', '>', ':', ';', ',', '.',
   '!', '?', Char.ofNat 34, Char.ofNat 39, Char.ofNat 96, '~', '@', '#', '$', '%',
   '^', '&', '*', '_', '=', '+', Char.ofNat 92, '|', '/']

/-- Embeds `re.sub(r"[...]", " ", t)` inside `normalize_title`: each punctuation
character of the class becomes one space (the class has no quantifier, so the
substitution is character-by-character). -/
def subPunct (l : List Char) : List Char :=
  l.map (fun c => if c ∈ punctChars then ' ' else c)

/-- Embeds `normalize_title`: clean, lowercase, punctuation to spaces, whitespace
collapsed, trimmed. -/
def normalize_title (title : List Char) : List Char :=
  pyStrip (subWs (subPunct ((clean_text title).map lowerChar)))

/-- Python substring test `pat in hay`. -/
def strIn (pat : List Char) : List Char → Bool
  | [] => pat.isPrefixOf []
  | c :: rest => pat.isPrefixOf (c :: rest) || strIn pat rest

/-- Python string `<` (lexicographic by code point). -/
def lexLt : List Char → List Char → Bool
  | [], [] => false
  | [], _ :: _ => true
  | _ :: _, [] => false
  | x :: xs, y :: ys =>
    if x.toNat < y.toNat then true
    else if y.toNat < x.toNat then false
    else lexLt xs ys

/-- Python string `<=`. -/
def lexLe (x y : List Char) : Bool := !(lexLt y x)

/-- Embeds `hashlib.sha1(s.encode()).hexdigest()[:12]` (`stable_hash`): a
deterministic fingerprint of the string. It is embedded as the identity
function — i.e. the truncated digest is treated as collision-free; no claim
verified here depends on the value of the hash, only on its determinism. -/
def stable_hash (s : List Char) : List Char := s

-- ---------- configuration tables of update_frontier.py ----------

def DAYS_BACK : Int := 7
def MAX_ITEMS : Nat := 60
def MIN_HOT_SCORE : Nat := 8
def MAX_PER_SOURCE : Nat := 80

/-- The `SOURCE_WEIGHT` table. -/
def SOURCE_WEIGHT : List (List Char × Nat) :=
  [("Hugging Face Blog".toList, 5),
   ("HF Daily Papers (community)".toList, 6),
   ("arXiv cs.AI".toList, 2),
   ("arXiv cs.LG".toList, 2),
   ("arXiv cs.CL".toList, 2),
   ("arXiv cs.CV".toList, 2),
   ("机器之心".toList, 5),
   ("新智元".toList, 5)]

/-- Embeds `SOURCE_WEIGHT.get(source, 3)`. -/
def sourceWeightOf (source : List Char) : Nat :=
  (SOURCE_WEIGHT.lookup source).getD 3

def CURATION_KEYWORDS : List (List Char) :=
  ["daily".toList, "trending".toList, "top".toList, "featured".toList,
   "highlight".toList, "highlights".toList, "best".toList, "hot".toList,
   "榜".toList, "精选".toList, "推荐".toList, "热点".toList]

-- ---------- the hotness model ----------

/-- Embeds `recency_bonus(published, today)`. -/
def recency_bonus (published today : Int) : Nat :=
  let delta := today - published
  if delta ≤ 1 then 4
  else if delta ≤ 3 then 3
  else if delta ≤ 7 then 1
  else 0

/-- Embeds `curation_bonus(title, source)`: 3 if any curation keyword occurs in
`(title + " " + source).lower()`, else 0. -/
def curation_bonus (title source : List Char) : Nat :=
  let hay := (title ++ ' ' :: source).map lowerChar
  if CURATION_KEYWORDS.any (fun kw => strIn (kw.map lowerChar) hay) then 3 else 0

/-- Embeds `cross_source_bonus(num_sources)`. -/
def cross_source_bonus (num_sources : Nat) : Nat :=
  if 3 ≤ num_sources then 7
  else if 2 ≤ num_sources then 4
  else 0

/-- Embeds `compute_hot_score(source, published, today, num_sources, title)`. -/
def compute_hot_score (source : List Char) (published today : Int)
    (num_sources : Nat) (title : List Char) : Nat :=
  sourceWeightOf source
    + recency_bonus published today
    + curation_bonus title source
    + cross_source_bonus num_sources

-- ---------- the data model ----------

/-- One element of `raw_items`: the per-entry record built by the ingestion
loop of `main` (title already passed through `clean_text`, the date already
parsed by `safe_parse_date`, `ai_summary` already truncated, `arxiv_id`
already extracted). The pipeline below is a function of this list. -/
structure RawItem where
  title : List Char
  source : List Char
  published_at : Int
  url : List Char
  ai_summary : List Char
  tags : List (List Char)
  arxiv_id : Option (List Char)
deriving DecidableEq

/-- The ingestion-loop cutoff: `if published < cutoff: continue`, with
`cutoff = today - timedelta(days=DAYS_BACK)`. -/
def surviveCutoff (today : Int) (l : List RawItem) : List RawItem :=
  l.filter (fun it => decide (¬ it.published_at < today - DAYS_BACK))

/-- The grouping key: `it["arxiv_id"] or normalize_title(it["title"])`, and
when that is falsy, `stable_hash(it["url"] or it["title"])`. (Python `or`
takes the right operand when the left one is `None` or the empty string.) -/
def groupKey (it : RawItem) : List Char :=
  let k :=
    match it.arxiv_id with
    | some a => if a = [] then normalize_title it.title else a
    | none => normalize_title it.title
  if k = [] then stable_hash (if it.url = [] then it.title else it.url) else k

/-- One entry of the `groups` dict. (The dict's `sources` set and its `best`
field are derived data: the set is recovered by `groupSources` below, and
`best` is recomputed from scratch at selection time, so neither is stored.) -/
structure Group where
  key : List Char
  items : List RawItem
deriving DecidableEq

/-- The distinct member sources, in first-appearance order (the `sources`
set of the groups dict; only its cardinality and its sorted listing are ever
consumed, both of which are independent of the set's iteration order). -/
def groupSources (g : Group) : List (List Char) :=
  (g.items.map RawItem.source).dedup

/-- One step of the grouping loop: append to the group of this item's key,
or create a fresh group at the end (Python dicts iterate in insertion
order). -/
def insertItem (gs : List Group) (it : RawItem) : List Group :=
  match gs with
  | [] => [⟨groupKey it, [it]⟩]
  | g :: rest =>
    if g.key = groupKey it then ⟨g.key, g.items ++ [it]⟩ :: rest
    else g :: insertItem rest it

/-- The grouping loop over `raw_items`. -/
def groupItems (l : List RawItem) : List Group := l.foldl insertItem []

/-- Embeds `item_rank(it) = (SOURCE_WEIGHT.get(source, 3), published_at)`; the
second component is the ISO date string in the script, compared
lexicographically, which is the order of the underlying dates. -/
def item_rank (it : RawItem) : Nat × Int :=
  (sourceWeightOf it.source, it.published_at)

/-- Embeds `item_rank a ≤ item_rank b` in Python tuple order. -/
def rankLe (a b : RawItem) : Bool :=
  if (item_rank a).1 < (item_rank b).1 then true
  else if (item_rank b).1 < (item_rank a).1 then false
  else decide ((item_rank a).2 ≤ (item_rank b).2)

/-- Embeds `items.sort(key=item_rank, reverse=True)`: a stable descending sort —
for equal ranks the original relative order is kept (CPython's sort is
stable, and `reverse=True` does not reorder equal elements). -/
def sortItemsDesc (l : List RawItem) : List RawItem :=
  l.insertionSort (fun a b => rankLe b a = true)

/-- Embeds `best = items[0]` after the stable descending sort. -/
def bestOf (g : Group) : Option RawItem :=
  (sortItemsDesc g.items).head?

/-- Embeds `max(dates)` over the member dates (groups are never empty; `0` is an
unreachable default for the empty list). -/
def maxPublished (g : Group) : Int :=
  match g.items.map RawItem.published_at with
  | [] => 0
  | d :: ds => ds.foldl max d

/-- Python `sorted(...)` on a list of strings. -/
def sortStrings (l : List (List Char)) : List (List Char) :=
  l.insertionSort (fun a b => lexLe a b = true)

/-- One element of the output array: the dict literal built per group in
`main` (fields `title, source, published_at, url, ai_summary, tags,
hot_score, sources`). -/
structure OutItem where
  title : List Char
  source : List Char
  published_at : Int
  url : List Char
  ai_summary : List Char
  tags : List (List Char)
  hot_score : Nat
  sources : List (List Char)
deriving DecidableEq

/-- Assembling the output dict of one group: best member's fields, the
group-level maximal date, the hot score, the sorted source set. (The
`none` branch is unreachable: groups always have at least one member.) -/
def groupOut (today : Int) (g : Group) : OutItem :=
  match bestOf g with
  | none => ⟨[], [], 0, [], [], [], 0, []⟩
  | some best =>
    { title := best.title
      source := best.source
      published_at := maxPublished g
      url := best.url
      ai_summary := best.ai_summary
      tags := best.tags
      hot_score := compute_hot_score best.source (maxPublished g) today
        (groupSources g).length best.title
      sources := sortStrings (groupSources g) }

/-- The `(hot_score, published_at)` tuple order of the final sort. -/
def hotKeyLe (a b : OutItem) : Bool :=
  if a.hot_score < b.hot_score then true
  else if b.hot_score < a.hot_score then false
  else decide (a.published_at ≤ b.published_at)

/-- Embeds `final_items.sort(key=lambda x: (x["hot_score"], x["published_at"]), reverse=True)`. -/
def sortOutDesc (l : List OutItem) : List OutItem :=
  l.insertionSort (fun a b => hotKeyLe b a = true)

/-- The Selector of `main`: drop below `MIN_HOT_SCORE`, stable-sort
descending by `(hot_score, published_at)`, truncate to `MAX_ITEMS`. -/
def selectItems (l : List OutItem) : List OutItem :=
  (sortOutDesc (l.filter (fun x => decide (MIN_HOT_SCORE ≤ x.hot_score)))).take MAX_ITEMS

/-- The whole scoring-and-selection pipeline of `main`, from the `raw_items`
candidates: cutoff filter, the empty-ingestion early return, grouping, per
group output assembly, selection. -/
def runPipeline (today : Int) (cands : List RawItem) : List OutItem :=
  let raw_items := surviveCutoff today cands
  if raw_items = [] then []
  else selectItems ((groupItems raw_items).map (groupOut today))

-- ---------- the Selector as the specification words it (§4.3) ----------

/-- The cap walk of §4.3, stated from the specification's words for the
refinement claim about the Selector: walk the sorted list keeping a running
per-source count, keep an item when its source is still under the cap, skip
it otherwise, never re-sorting. -/
def capWalk (cap : Nat) : (List Char → Nat) → List OutItem → List OutItem
  | _, [] => []
  | cnt, x :: xs =>
    if cnt x.source < cap then
      x :: capWalk cap (fun s => if s = x.source then cnt s + 1 else cnt s) xs
    else capWalk cap cnt xs

/-- The Selector contract of §4.3, stated from the specification's words:
(a) drop below `MIN_HOT_SCORE`; (b) stable-sort descending by
`(hot_score, published_at)`; (c) walk applying the per-source output cap
(the configured per-source maximum is the constant `MAX_PER_SOURCE`);
(d) truncate to `MAX_ITEMS`. -/
def specSelect (l : List OutItem) : List OutItem :=
  (capWalk MAX_PER_SOURCE (fun _ => 0)
    (sortOutDesc (l.filter (fun x => decide (MIN_HOT_SCORE ≤ x.hot_score))))).take MAX_ITEMS

-- ---------- source types (claim C2) ----------

/-- The coarse source classification of spec §4.2. -/
inductive SourceType where
  | primary
  | secondary
  | factual
deriving DecidableEq

/-- Modelled from the spec: §4.2 postulates "a fixed source→type table"
classifying each source as curated/primary, secondary/amplifier or
factual-only; no such table exists anywhere in the code. Following the
configuration comments of `update_frontier.py` (curated/trending feeds are
the hot, high-weight ones; the arXiv full feeds are low-weight supplements),
the curated feeds are classified primary and the arXiv full feeds
secondary/amplifier. -/
def sourceType (source : List Char) : SourceType :=
  if source = "arXiv cs.AI".toList ∨ source = "arXiv cs.LG".toList
      ∨ source = "arXiv cs.CL".toList ∨ source = "arXiv cs.CV".toList then
    SourceType.secondary
  else SourceType.primary

/-- Claim C2 as stated: the cross-source bonus of a group's source set is
determined by the set of source types present in it. -/
def crossBonusByTypes : Prop :=
  ∃ f : Finset SourceType → Nat,
    ∀ s : Finset (List Char), cross_source_bonus s.card = f (s.image sourceType)

-- ---------- title-content skeleton (claim C8) ----------

/-- The content of a title with letter case folded and every punctuation and
whitespace character deleted: two titles "differing only in letter case,
punctuation, or whitespace" are exactly two titles with the same
`titleCore`. -/
def titleCore (t : List Char) : List Char :=
  (t.map lowerChar).filter (fun c => !(decide (c ∈ punctChars)) && !(isWs c))

-- ---------- the enrichment pass (ai_summarize_deepseek.py) ----------

/-- The `TAGS` keyword table. -/
def TAGS : List (List Char × List (List Char)) :=
  [("Agent".toList, ["agent".toList, "tool".toList, "function calling".toList,
      "mcp".toList, "planner".toList, "workflow".toList, "autonomous".toList]),
   ("RAG".toList, ["rag".toList, "retrieval".toList, "rerank".toList, "graph".toList,
      "graphrag".toList, "vector".toList, "embedding".toList]),
   ("LLM".toList, ["llm".toList, "language model".toList, "transformer".toList,
      "instruction".toList, "sft".toList, "rlhf".toList, "dpo".toList]),
   ("Multimodal".toList, ["multimodal".toList, "vision-language".toList, "vlm".toList,
      "image".toList, "video".toList, "audio".toList]),
   ("Vision".toList, ["diffusion".toList, "segmentation".toList, "detection".toList,
      "restormer".toList, "denoise".toList, "super-resolution".toList]),
   ("Reasoning".toList, ["reasoning".toList, "math".toList, "theorem".toList,
      "planning".toList]),
   ("Systems".toList, ["inference".toList, "serving".toList, "throughput".toList,
      "latency".toList, "quantization".toList, "kernel".toList, "cuda".toList]),
   ("Robotics".toList, ["robot".toList, "slam".toList, "manipulation".toList,
      "control".toList]),
   ("Finance".toList, ["finance".toList, "stock".toList, "trading".toList,
      "valuation".toList])]

/-- Embeds `simple_tags(text)`: the tag names whose keyword list hits the lowered
text, deduplicated and sorted (`sorted(set(out))`). -/
def simple_tags (text : List Char) : List (List Char) :=
  let t := text.map lowerChar
  let out := (TAGS.filter (fun p => p.2.any (fun kw => strIn kw t))).map Prod.fst
  sortStrings out.dedup

/-- Embeds `clean_ws(s) = re.sub(r"\s+", " ", (s or "").strip())`. -/
def clean_ws (s : List Char) : List Char := subWs (pyStrip s)

/-- Embeds `summarize_one`, with the LLM response text passed in (`call_deepseek_chat`
is an external network call; its response is an arbitrary string): the item's
`ai_summary` is replaced by the cleaned response, and `tags` becomes the
sorted union of the old tags with `simple_tags(title + " " + new summary)`.
No other key of the item is touched. -/
def summarize_one (text : List Char) (item : OutItem) : OutItem :=
  let newSummary := clean_ws text
  { item with
    ai_summary := newSummary
    tags := sortStrings ((item.tags ++ simple_tags (item.title ++ ' ' :: newSummary)).dedup) }

/-- The per-item guard of the enrichment loop:
`s = (it.get("ai_summary") or "").strip()`, skip when
`len(s) >= 80 and "信息有限" not in s`. -/
def skipEnrich (it : OutItem) : Bool :=
  let s := pyStrip it.ai_summary
  decide (80 ≤ s.length) && !(strIn "信息有限".toList s)

/-- The enrichment loop of `ai_summarize_deepseek.main`, from item index `i`.
`oracle i` is the LLM response for the item at index `i`; `none` is a raised
exception (`except: ... continue`), which leaves the item unchanged. Items
are updated in place (`items[i] = summarize_one(it)`), so order and length
are structural. -/
def enrichFrom (oracle : Nat → Option (List Char)) : Nat → List OutItem → List OutItem
  | _, [] => []
  | i, it :: rest =>
    (if skipEnrich it then it
     else
       match oracle i with
       | some text => summarize_one text it
       | none => it) :: enrichFrom oracle (i + 1) rest

/-- The whole enrichment pass over the snapshot's items. -/
def enrich (oracle : Nat → Option (List Char)) (items : List OutItem) : List OutItem :=
  enrichFrom oracle 0 items

/-- The fixed keyword-derived tag vocabulary: the tag names of `TAGS`. -/
def tagVocabulary : List (List Char) := TAGS.map Prod.fst

-- ---------- the written snapshot (claims C4, C5) ----------

/-- A JSON value as it appears in one output dict. `jdate` is an ISO-8601
date string (dates are embedded as day numbers, see the header). -/
inductive JVal where
  | jstr : List Char → JVal
  | jint : Nat → JVal
  | jdate : Int → JVal
  | jarr : List (List Char) → JVal
deriving DecidableEq

/-- The key/value pairs of the output dict literal of `main`, in source
order: `title, source, published_at, url, ai_summary, tags, hot_score,
sources`. -/
def resultKV (o : OutItem) : List (List Char × JVal) :=
  [("title".toList, JVal.jstr o.title),
   ("source".toList, JVal.jstr o.source),
   ("published_at".toList, JVal.jdate o.published_at),
   ("url".toList, JVal.jstr o.url),
   ("ai_summary".toList, JVal.jstr o.ai_summary),
   ("tags".toList, JVal.jarr o.tags),
   ("hot_score".toList, JVal.jint o.hot_score),
   ("sources".toList, JVal.jarr o.sources)]

/-- The field names of the output dict literal, in source order. -/
def resultKeys : List (List Char) :=
  ["title".toList, "source".toList, "published_at".toList, "url".toList,
   "ai_summary".toList, "tags".toList, "hot_score".toList, "sources".toList]

/-- Decimal digits of a natural number. -/
def natToChars (n : Nat) : List Char :=
  if h : n < 10 then [Char.ofNat (48 + n)]
  else natToChars (n / 10) ++ [Char.ofNat (48 + n % 10)]
  termination_by n
  decreasing_by
    exact Nat.div_lt_self (by omega) (by omega)

/-- Decimal rendering of an integer. -/
def intToChars (i : Int) : List Char :=
  if i < 0 then '-' :: natToChars (-i).toNat else natToChars i.toNat

/-- JSON string escaping (quote, backslash, control characters). -/
def jsonEscapeChar (c : Char) : List Char :=
  if c = Char.ofNat 34 then [Char.ofNat 92, Char.ofNat 34]
  else if c = Char.ofNat 92 then [Char.ofNat 92, Char.ofNat 92]
  else if c.toNat < 32 then
    [Char.ofNat 92, 'u', '0', '0',
     Char.ofNat (if c.toNat / 16 < 10 then 48 + c.toNat / 16 else 87 + c.toNat / 16),
     Char.ofNat (if c.toNat % 16 < 10 then 48 + c.toNat % 16 else 87 + c.toNat % 16)]
  else [c]

/-- A JSON string literal (`ensure_ascii=False`: non-ASCII stays as-is). -/
def jsonStr (s : List Char) : List Char :=
  Char.ofNat 34 :: s.flatMap jsonEscapeChar ++ [Char.ofNat 34]

/-- Rendering of one JSON value. A `jdate` renders as the quoted decimal day
number standing for the ISO date string. -/
def renderJVal : JVal → List Char
  | JVal.jstr s => jsonStr s
  | JVal.jint n => natToChars n
  | JVal.jdate d => jsonStr (intToChars d)
  | JVal.jarr l =>
    '[' :: List.intercalate (", ".toList) (l.map jsonStr) ++ [']']

/-- Rendering of one output dict. -/
def renderObj (o : OutItem) : List Char :=
  Char.ofNat 123 ::
    List.intercalate (", ".toList)
      ((resultKV o).map (fun p => jsonStr p.1 ++ ':' :: ' ' :: renderJVal p.2))
    ++ [Char.ofNat 125]

/-- Embeds `json.dumps(final_items, ensure_ascii=False, indent=2)`: `[]` for the
empty list, the bracketed comma-separated object renderings otherwise (the
indent-2 whitespace layout of the non-empty case is not reproduced; every
claim proved below evaluates this function only at the empty list). -/
def jsonDumpItems : List OutItem → List Char
  | [] => "[]".toList
  | x :: xs =>
    '[' :: List.intercalate (", ".toList) ((x :: xs).map renderObj) ++ [']']

/-- The text written to `data/frontier.json` by one run of `main`: the
literal `"[]"` on the empty-ingestion early return, the JSON dump of the
selected items otherwise. -/
def writtenText (today : Int) (cands : List RawItem) : List Char :=
  if surviveCutoff today cands = [] then "[]".toList
  else jsonDumpItems (runPipeline today cands)

-- ---------- word decompositions (used to settle claim C8) ----------

/-- A separator for title normalization: whitespace, or a punctuation
character of the stripped class (which `normalize_title` turns into a
space). -/
def isSep (c : Char) : Bool := isWs c || decide (c ∈ punctChars)

/-- The maximal whitespace-free segments of a string, in order. -/
def wordsWs : List Char → List (List Char)
  | [] => []
  | c :: rest =>
    if isWs c then wordsWs rest
    else (c :: rest.takeWhile (fun d => !isWs d)) :: wordsWs (rest.dropWhile (fun d => !isWs d))
  termination_by l => l.length
  decreasing_by
    · simp
    · have hlen : (rest.dropWhile (fun d => !isWs d)).length ≤ rest.length :=
        (List.dropWhile_sublist _).length_le
      simp only [List.length_cons]
      omega

/-- The maximal separator-free segments of a string, in order: the "words"
that survive title normalization. -/
def wordsBySep : List Char → List (List Char)
  | [] => []
  | c :: rest =>
    if isSep c then wordsBySep rest
    else (c :: rest.takeWhile (fun d => !isSep d)) :: wordsBySep (rest.dropWhile (fun d => !isSep d))
  termination_by l => l.length
  decreasing_by
    · simp
    · have hlen : (rest.dropWhile (fun d => !isSep d)).length ≤ rest.length :=
        (List.dropWhile_sublist _).length_le
      simp only [List.length_cons]
      omega

-- ---------- concrete sample data (witnesses and counterexamples) ----------

/-- A single-member candidate from the curated HF Daily feed, published on
day 100. -/
def hfDailyItem : RawItem :=
  ⟨"A Paper".toList, "HF Daily Papers (community)".toList, 100, "u".toList,
   "s".toList, [], none⟩

/-- The singleton group of `hfDailyItem`. -/
def hfDailyGroup : Group := ⟨groupKey hfDailyItem, [hfDailyItem]⟩

/-- A five-day-old arXiv candidate (hot score 3, below the threshold). -/
def arxivOldItem : RawItem :=
  ⟨"A Paper".toList, "arXiv cs.AI".toList, 95, "u".toList, "s".toList, [], none⟩

/-- A same-day Hugging Face Blog candidate (hot score 9, above the
threshold). -/
def hfBlogItem : RawItem :=
  ⟨"A Paper".toList, "Hugging Face Blog".toList, 100, "u2".toList, "s2".toList, [], none⟩

/-- A same-day arXiv candidate sharing `hfBlogItem`'s normalized title. -/
def arxivNewItem : RawItem :=
  ⟨"A Paper".toList, "arXiv cs.AI".toList, 100, "u3".toList, "s3".toList, [], none⟩

/-- A snapshot item with a short summary (so the enrichment loop would
rewrite it). -/
def sampleOut : OutItem :=
  ⟨"T".toList, "Hugging Face Blog".toList, 100, "u".toList, "sum".toList, [], 9,
   ["Hugging Face Blog".toList]⟩

-- ---------- helper lemmas ----------

/-- The cap walk leaves the first `n` elements of the list untouched when
every running count is still at least `n` under the cap. -/
theorem capWalk_take (cap : Nat) :
    ∀ (l : List OutItem) (n : Nat) (cnt : List Char → Nat),
      (∀ s, cnt s + n ≤ cap) → (capWalk cap cnt l).take n = l.take n := by
  intro l
  induction l with
  | nil => intro n cnt _; rfl
  | cons x xs ih =>
    intro n cnt h
    match n with
    | 0 => rfl
    | Nat.succ m =>
      have hx : cnt x.source < cap := by have := h x.source; omega
      have hstep : capWalk cap cnt (x :: xs) =
          x :: capWalk cap (fun s => if s = x.source then cnt s + 1 else cnt s) xs := by
        simp [capWalk, hx]
      rw [hstep, List.take_succ_cons, List.take_succ_cons]
      rw [ih m _ ?_]
      intro s
      have hsle := h s
      by_cases hs : s = x.source
      · subst hs; simp only [if_pos]; omega
      · simp only [if_neg hs]; omega

-- ---------- claim C3 ----------

/-- C3: the Selector drops every group scoring under `MIN_HOT_SCORE`, stable-sorts
the survivors descending by `(hot_score, published_at)`, applies the per-source
output cap (the configured cap `MAX_PER_SOURCE = 80` for every source) while
preserving order, and truncates to `MAX_ITEMS`; the code's selector is
extensionally equal to that contract (the cap pass can never remove one of the
first `MAX_ITEMS = 60` items, because a skip requires 80 earlier same-source
items), and every output item scores at least `MIN_HOT_SCORE` with output
length at most `MAX_ITEMS`. -/
theorem c3_selector_contract (l : List OutItem) :
    selectItems l = specSelect l
    ∧ (∀ x ∈ selectItems l, MIN_HOT_SCORE ≤ x.hot_score)
    ∧ (selectItems l).length ≤ MAX_ITEMS := by
  refine ⟨?_, ?_, ?_⟩
  · unfold selectItems specSelect
    rw [capWalk_take MAX_PER_SOURCE _ MAX_ITEMS _ ?_]
    intro s
    simp [MAX_PER_SOURCE, MAX_ITEMS]
  · intro x hx
    unfold selectItems at hx
    have hx1 : x ∈ sortOutDesc (l.filter (fun x => decide (MIN_HOT_SCORE ≤ x.hot_score))) :=
      List.take_subset _ _ hx
    have hx2 := (List.perm_insertionSort
      (fun a b : OutItem => hotKeyLe b a = true) _).mem_iff.mp hx1
    have := (List.mem_filter.mp hx2).2
    simpa using this
  · exact List.length_take_le _ _

-- ---------- claim C2 ----------

/-- C2 counterexample: the cross-source bonus is not a function of the set of
source types present in the group's source set — the singleton
`{arXiv cs.AI}` and the pair `{arXiv cs.AI, arXiv cs.LG}` both present
exactly the type set `{secondary}`, yet the code awards bonus 0 to the first
and 4 to the second. (In particular a lone primary source also gets bonus 0,
not a moderate one, and any two-source set gets 4 regardless of types.) -/
theorem c2_counterexample : ¬ crossBonusByTypes := by
  rintro ⟨f, hf⟩
  have h1 := hf {"arXiv cs.AI".toList}
  have h2 := hf {"arXiv cs.AI".toList, "arXiv cs.LG".toList}
  have e1 : cross_source_bonus ({"arXiv cs.AI".toList} : Finset (List Char)).card = 0 := by
    decide
  have e2 : cross_source_bonus
      ({"arXiv cs.AI".toList, "arXiv cs.LG".toList} : Finset (List Char)).card = 4 := by
    decide
  have eimg : ({"arXiv cs.AI".toList, "arXiv cs.LG".toList} : Finset (List Char)).image
      sourceType = ({"arXiv cs.AI".toList} : Finset (List Char)).image sourceType := by
    decide
  rw [e1] at h1
  rw [e2, eimg] at h2
  omega

/-- C2 (amended): the cross-source bonus is determined solely by the number
of distinct sources in the group's source set, independent of any source
typing — a single source of any type yields 0, exactly two sources yield 4,
and three or more yield 7. -/
theorem c2_cross_bonus_count (s : Finset (List Char)) :
    (s.card = 1 → cross_source_bonus s.card = 0)
    ∧ (s.card = 2 → cross_source_bonus s.card = 4)
    ∧ (3 ≤ s.card → cross_source_bonus s.card = 7) := by
  refine ⟨fun h => ?_, fun h => ?_, fun h => ?_⟩ <;>
    · unfold cross_source_bonus
      split_ifs <;> omega

/-- Witness for C2 (amended) at concrete one-, two- and three-element source
sets. -/
theorem c2_cross_bonus_count_witness :
    cross_source_bonus ({"Hugging Face Blog".toList} : Finset (List Char)).card = 0
    ∧ cross_source_bonus
        ({"arXiv cs.AI".toList, "arXiv cs.LG".toList} : Finset (List Char)).card = 4
    ∧ cross_source_bonus
        ({"arXiv cs.AI".toList, "arXiv cs.LG".toList, "Hugging Face Blog".toList} :
          Finset (List Char)).card = 7 :=
  ⟨(c2_cross_bonus_count _).1 (by decide),
   (c2_cross_bonus_count _).2.1 (by decide),
   (c2_cross_bonus_count _).2.2 (by decide)⟩

-- ---------- claim C10 ----------

/-- C10: an entry whose parsed date is today or later (future-dated feed
items, and unparseable dates repaired to today by `safe_parse_date`) passes
the `days_back` ingestion cutoff, and its day delta falls in the highest
(≤ 1 day) recency bucket, whose bonus 4 is the maximum `recency_bonus` ever
returns (the function is total over all integer deltas, negative ones
included). -/
theorem c10_future_dates (today : Int) (cands : List RawItem) (it : RawItem)
    (h1 : it ∈ cands) (h2 : today ≤ it.published_at) :
    it ∈ surviveCutoff today cands
    ∧ recency_bonus it.published_at today = 4
    ∧ ∀ p t : Int, recency_bonus p t ≤ 4 := by
  refine ⟨?_, ?_, ?_⟩
  · unfold surviveCutoff
    rw [List.mem_filter]
    refine ⟨h1, ?_⟩
    simp only [DAYS_BACK, decide_eq_true_eq]
    omega
  · unfold recency_bonus
    have hd : today - it.published_at ≤ 1 := by omega
    simp [hd]
  · intro p t
    show (if t - p ≤ 1 then 4 else if t - p ≤ 3 then 3 else if t - p ≤ 7 then 1 else 0) ≤ 4
    split_ifs <;> omega

/-- Witness for C10: a same-day entry. -/
theorem c10_future_dates_witness :
    hfBlogItem ∈ surviveCutoff 100 [hfBlogItem]
    ∧ recency_bonus hfBlogItem.published_at 100 = 4
    ∧ ∀ p t : Int, recency_bonus p t ≤ 4 :=
  c10_future_dates 100 [hfBlogItem] hfBlogItem (by decide) (by decide)

-- ---------- claim C1 ----------

/-- C1 counterexample: for the singleton group of a same-day "HF Daily
Papers (community)" item, the hot score is 13, but the three-term sum
source weight (6) + recency bonus (4) + cross-source bonus (0) is 10: a
fourth term, the curation bonus (3, triggered by the keyword "daily" in the
source name), also contributes. -/
theorem c1_counterexample :
    (groupOut 100 hfDailyGroup).hot_score ≠
      sourceWeightOf hfDailyItem.source
        + recency_bonus (maxPublished hfDailyGroup) 100
        + cross_source_bonus (groupSources hfDailyGroup).length := by
  decide

/-- C1 (amended): for every non-empty group, the hot score equals exactly
the sum of four terms: the source weight of the best member's source (with
the configured default 3 for unknown sources), the recency bonus of
today minus the group's maximal published date, the curation bonus of the
best member's title and source, and the cross-source bonus of the group's
source set. -/
theorem c1_hot_score_sum (today : Int) (g : Group) (h : g.items ≠ []) :
    ∃ best, bestOf g = some best ∧
      (groupOut today g).hot_score =
        sourceWeightOf best.source
          + recency_bonus (maxPublished g) today
          + curation_bonus best.title best.source
          + cross_source_bonus (groupSources g).length := by
  have hs : sortItemsDesc g.items ≠ [] := by
    intro he
    apply h
    have hp := List.perm_insertionSort (fun a b : RawItem => rankLe b a = true) g.items
    rw [sortItemsDesc] at he
    rw [he] at hp
    exact hp.symm.eq_nil
  obtain ⟨b, t, hbt⟩ : ∃ b t, sortItemsDesc g.items = b :: t := by
    cases hsort : sortItemsDesc g.items with
    | nil => exact absurd hsort hs
    | cons b t => exact ⟨b, t, rfl⟩
  have hbest : bestOf g = some b := by
    unfold bestOf
    rw [hbt]
    rfl
  refine ⟨b, hbest, ?_⟩
  unfold groupOut
  rw [hbest]
  rfl

/-- Witness for C1 (amended) at the singleton HF Daily group. -/
theorem c1_hot_score_sum_witness :
    hfDailyGroup.items ≠ [] ∧
    ∃ best, bestOf hfDailyGroup = some best ∧
      (groupOut 100 hfDailyGroup).hot_score =
        sourceWeightOf best.source
          + recency_bonus (maxPublished hfDailyGroup) 100
          + curation_bonus best.title best.source
          + cross_source_bonus (groupSources hfDailyGroup).length :=
  ⟨by decide, c1_hot_score_sum 100 hfDailyGroup (by decide)⟩

-- ---------- grouping machinery ----------

/-- The step function `insertItem` keeps the key list unchanged when the item's key is already
present, and appends the new key at the end otherwise. -/
theorem insertItem_map_key (gs : List Group) (it : RawItem) :
    (insertItem gs it).map Group.key =
      if groupKey it ∈ gs.map Group.key then gs.map Group.key
      else gs.map Group.key ++ [groupKey it] := by
  induction gs with
  | nil => simp [insertItem]
  | cons g rest ih =>
    by_cases hk : g.key = groupKey it
    · simp [insertItem, hk]
    · have hk' : groupKey it ≠ g.key := fun he => hk he.symm
      simp only [insertItem, if_neg hk, List.map_cons, ih, List.mem_cons]
      by_cases hm : groupKey it ∈ rest.map Group.key
      · simp [hm, hk']
      · simp [hm, hk']

/-- Where each group of `insertItem gs it` comes from: an old group (with
the item appended when the key matches, under distinct keys), or the fresh
singleton group of a previously unseen key. -/
theorem mem_insertItem (gs : List Group) (it : RawItem)
    (hnd : (gs.map Group.key).Nodup) :
    ∀ g' ∈ insertItem gs it,
      (∃ g ∈ gs, g'.key = g.key ∧
        g'.items = g.items ++ (if groupKey it = g.key then [it] else []))
      ∨ (groupKey it ∉ gs.map Group.key ∧ g' = ⟨groupKey it, [it]⟩) := by
  induction gs with
  | nil =>
    intro g' hg'
    right
    simp only [insertItem, List.mem_singleton] at hg'
    exact ⟨by simp, hg'⟩
  | cons g rest ih =>
    intro g' hg'
    simp only [List.map_cons, List.nodup_cons] at hnd
    by_cases hk : g.key = groupKey it
    · simp only [insertItem, if_pos hk] at hg'
      rcases List.mem_cons.mp hg' with he | hmem
      · left
        exact ⟨g, List.mem_cons_self g rest, by rw [he], by rw [he, if_pos hk.symm]⟩
      · left
        refine ⟨g', List.mem_cons_of_mem g hmem, rfl, ?_⟩
        have hne : groupKey it ≠ g'.key := by
          intro he
          apply hnd.1
          rw [hk, he]
          exact List.mem_map_of_mem Group.key hmem
        rw [if_neg hne]
        simp
    · simp only [insertItem, if_neg hk] at hg'
      rcases List.mem_cons.mp hg' with he | hmem
      · left
        refine ⟨g, List.mem_cons_self g rest, by rw [he], ?_⟩
        have hne : groupKey it ≠ g.key := fun he' => hk he'.symm
        rw [he, if_neg hne]
        simp
      · rcases ih hnd.2 g' hmem with ⟨g₀, hg₀, hkey, hit⟩ | ⟨hnot, he⟩
        · exact Or.inl ⟨g₀, List.mem_cons_of_mem g hg₀, hkey, hit⟩
        · right
          refine ⟨?_, he⟩
          simp only [List.map_cons, List.mem_cons]
          rintro (hkg | hmem')
          · exact hk hkg.symm
          · exact hnot hmem'

/-- The running invariant of the grouping fold: distinct keys, keys are
exactly the keys of the processed items, and each group holds exactly the
processed items of its key, in arrival order. -/
theorem foldl_insertItem_inv :
    ∀ (l : List RawItem) (gs : List Group) (pr : List RawItem),
      (gs.map Group.key).Nodup →
      (∀ k, k ∈ gs.map Group.key ↔ k ∈ pr.map groupKey) →
      (∀ g ∈ gs, g.items = pr.filter (fun x => decide (groupKey x = g.key))) →
      ((l.foldl insertItem gs).map Group.key).Nodup
      ∧ (∀ k, k ∈ (l.foldl insertItem gs).map Group.key ↔ k ∈ (pr ++ l).map groupKey)
      ∧ ∀ g ∈ l.foldl insertItem gs,
          g.items = (pr ++ l).filter (fun x => decide (groupKey x = g.key)) := by
  intro l
  induction l with
  | nil =>
    intro gs pr h1 h2 h3
    simp only [List.foldl_nil, List.append_nil]
    exact ⟨h1, h2, h3⟩
  | cons it l ih =>
    intro gs pr h1 h2 h3
    have step1 : ((insertItem gs it).map Group.key).Nodup := by
      rw [insertItem_map_key]
      split_ifs with hm
      · exact h1
      · simp only [List.nodup_append, List.nodup_cons, List.nodup_nil]
        exact ⟨h1, by simpa using hm⟩
    have step2 : ∀ k, k ∈ (insertItem gs it).map Group.key ↔
        k ∈ (pr ++ [it]).map groupKey := by
      intro k
      rw [insertItem_map_key]
      split_ifs with hm
      · constructor
        · intro hk
          simp only [List.map_append, List.mem_append]
          exact Or.inl ((h2 k).mp hk)
        · intro hk
          rcases (by simpa using hk : k ∈ pr.map groupKey ∨ k = groupKey it) with h | h
          · exact (h2 k).mpr h
          · rw [h]; exact hm
      · simp only [List.map_append, List.mem_append, List.map_cons, List.map_nil,
          List.mem_singleton, List.mem_cons, List.not_mem_nil, or_false]
        constructor
        · rintro (hk | hk)
          · exact Or.inl ((h2 k).mp hk)
          · exact Or.inr hk
        · rintro (hk | hk)
          · exact Or.inl ((h2 k).mpr hk)
          · exact Or.inr hk
    have step3 : ∀ g ∈ insertItem gs it,
        g.items = (pr ++ [it]).filter (fun x => decide (groupKey x = g.key)) := by
      intro g' hg'
      rcases mem_insertItem gs it h1 g' hg' with ⟨g, hg, hkey, hit⟩ | ⟨hnot, he⟩
      · rw [hit, h3 g hg, List.filter_append, hkey]
        congr 1
        by_cases hk : groupKey it = g.key
        · simp [hk]
        · simp [hk]
      · rw [he]
        simp only [List.filter_append]
        have hpr : pr.filter (fun x => decide (groupKey x = groupKey it)) = [] := by
          apply List.filter_eq_nil_iff.mpr
          intro x hx
          simp only [decide_eq_true_eq]
          intro hxk
          apply hnot
          apply (h2 (groupKey it)).mpr
          rw [← hxk]
          exact List.mem_map_of_mem groupKey hx
        rw [hpr]
        simp
    have := ih (insertItem gs it) (pr ++ [it]) step1 step2 step3
    simpa using this

/-- The grouping pass of `main`: the groups carry pairwise-distinct keys,
the key set is the key set of the input, and each group's member list is
the input's sublist of that key, in arrival order. -/
theorem groupItems_sound (l : List RawItem) :
    ((groupItems l).map Group.key).Nodup
    ∧ (∀ k, k ∈ (groupItems l).map Group.key ↔ k ∈ l.map groupKey)
    ∧ ∀ g ∈ groupItems l, g.items = l.filter (fun x => decide (groupKey x = g.key)) := by
  have := foldl_insertItem_inv l [] [] (by simp) (by simp) (by simp)
  simpa [groupItems] using this

-- ---------- the rank order and the stable descending sort ----------

/-- The relation `rankLe` is the (total pre)order of Python's tuple comparison on
`item_rank`. -/
theorem rankLe_iff (a b : RawItem) :
    rankLe a b = true ↔
      ((item_rank a).1 < (item_rank b).1
        ∨ ((item_rank a).1 = (item_rank b).1 ∧ (item_rank a).2 ≤ (item_rank b).2)) := by
  unfold rankLe
  split_ifs with h1 h2 <;> simp <;> omega

theorem rankLe_total (a b : RawItem) : rankLe a b = true ∨ rankLe b a = true := by
  rw [rankLe_iff, rankLe_iff]
  omega

theorem rankLe_trans (a b c : RawItem) (hab : rankLe a b = true)
    (hbc : rankLe b c = true) : rankLe a c = true := by
  rw [rankLe_iff] at hab hbc ⊢
  omega

/-- Strengthening the predicate of a successful `find?` keeps the found
element when the stronger predicate still holds there. -/
theorem find?_stronger {α : Type} (p q : α → Bool) :
    ∀ (l : List α) (b : α), l.find? p = some b → q b = true →
      (∀ y, q y = true → p y = true) → l.find? q = some b := by
  intro l
  induction l with
  | nil => intro b hb; simp at hb
  | cons c l ih =>
    intro b hb hqb himp
    rw [List.find?_cons] at hb ⊢
    by_cases hpc : p c = true
    · rw [hpc] at hb
      simp only at hb
      cases hb
      rw [hqb]
    · have hpc' : p c = false := by simpa using hpc
      rw [hpc'] at hb
      simp only at hb
      have hqc : q c = false := by
        by_cases hq : q c = true
        · exact absurd (himp c hq) hpc
        · simpa using hq
      rw [hqc]
      simp only
      exact ih b hb hqb himp

/-- The head of the stable descending insertion sort is the first element of
the list whose rank is maximal: a stable choice of the best element. -/
theorem head_sort_first_max {α : Type} (rle : α → α → Bool)
    (htot : ∀ a b, rle a b = true ∨ rle b a = true)
    (htrans : ∀ a b c, rle a b = true → rle b c = true → rle a c = true) :
    ∀ l : List α,
      (List.insertionSort (fun a b => rle b a = true) l).head? =
        l.find? (fun y => l.all (fun z => rle z y)) := by
  intro l
  induction l with
  | nil => rfl
  | cons a l ih =>
    have hsort : List.insertionSort (fun a b => rle b a = true) (a :: l) =
        List.orderedInsert (fun a b => rle b a = true) a
          (List.insertionSort (fun a b => rle b a = true) l) := rfl
    cases hs : List.insertionSort (fun a b => rle b a = true) l with
    | nil =>
      have hl : l = [] := by
        have hp := List.perm_insertionSort (fun a b => rle b a = true) l
        rw [hs] at hp
        exact hp.symm.eq_nil
      subst hl
      rw [hsort, hs]
      simp only [List.orderedInsert, List.head?_cons, List.find?_cons]
      have : rle a a = true := (htot a a).elim id id
      simp [this]
    | cons b t =>
      have hb : l.find? (fun y => l.all (fun z => rle z y)) = some b := by
        rw [hs] at ih
        exact ih.symm
      have hPb : l.all (fun z => rle z b) = true :=
        @List.find?_some _ (fun y => l.all (fun z => rle z y)) b l hb
      have hbmem : b ∈ l := List.mem_of_find?_eq_some hb
      rw [hsort, hs]
      by_cases hab : rle b a = true
      · rw [List.orderedInsert, if_pos hab, List.head?_cons]
        have hPa : (a :: l).all (fun z => rle z a) = true := by
          rw [List.all_cons, Bool.and_eq_true]
          refine ⟨(htot a a).elim id id, ?_⟩
          rw [List.all_eq_true] at hPb ⊢
          intro z hz
          exact htrans z b a (hPb z hz) hab
        rw [List.find?_cons, hPa]
      · rw [List.orderedInsert, if_neg hab, List.head?_cons]
        have hPa : (a :: l).all (fun z => rle z a) = false := by
          rw [Bool.eq_false_iff]
          intro hall
          exact hab (List.all_eq_true.mp hall b (List.mem_cons_of_mem a hbmem))
        rw [List.find?_cons, hPa]
        simp only
        have hba : rle a b = true := (htot a b).resolve_right hab
        symm
        apply find?_stronger _ _ l b hb
        · rw [List.all_cons, hba, hPb]
          rfl
        · intro y hy
          rw [List.all_cons, Bool.and_eq_true] at hy
          exact hy.2

/-- The best pick of a group: the first member of maximal `item_rank`, in
arrival order — in particular a deterministic and stable tie-break. -/
theorem bestOf_first_max (g : Group) :
    bestOf g = g.items.find? (fun y => g.items.all (fun z => rankLe z y)) :=
  head_sort_first_max rankLe rankLe_total rankLe_trans g.items

-- ---------- claim C6 ----------

/-- C6: permuting the raw-entry input changes neither the set of group keys
nor the membership of any group (the partition depends only on each entry's
identity key); members are kept in arrival order, and the best pick is
always the stable tie-break: the first member, in arrival order, of maximal
`(source weight, published date)` rank. -/
theorem c6_grouping_commutes (l₁ l₂ : List RawItem) (h : List.Perm l₁ l₂) :
    List.Perm ((groupItems l₁).map Group.key) ((groupItems l₂).map Group.key)
    ∧ (∀ g₁ ∈ groupItems l₁, ∀ g₂ ∈ groupItems l₂, g₁.key = g₂.key →
        List.Perm g₁.items g₂.items)
    ∧ ∀ g : Group, bestOf g = g.items.find? (fun y => g.items.all (fun z => rankLe z y)) := by
  obtain ⟨hn₁, hk₁, hi₁⟩ := groupItems_sound l₁
  obtain ⟨hn₂, hk₂, hi₂⟩ := groupItems_sound l₂
  refine ⟨?_, ?_, fun g => bestOf_first_max g⟩
  · apply (List.perm_ext_iff_of_nodup hn₁ hn₂).mpr
    intro k
    rw [hk₁ k, hk₂ k]
    exact (h.map groupKey).mem_iff
  · intro g₁ hg₁ g₂ hg₂ hkey
    rw [hi₁ g₁ hg₁, hi₂ g₂ hg₂, hkey]
    exact h.filter _

/-- Witness for C6: two concrete two-entry inputs that are permutations of
each other. -/
theorem c6_grouping_commutes_witness :
    List.Perm ((groupItems [hfBlogItem, arxivNewItem]).map Group.key)
      ((groupItems [arxivNewItem, hfBlogItem]).map Group.key)
    ∧ (∀ g₁ ∈ groupItems [hfBlogItem, arxivNewItem],
        ∀ g₂ ∈ groupItems [arxivNewItem, hfBlogItem], g₁.key = g₂.key →
          List.Perm g₁.items g₂.items)
    ∧ ∀ g : Group, bestOf g = g.items.find? (fun y => g.items.all (fun z => rankLe z y)) :=
  c6_grouping_commutes [hfBlogItem, arxivNewItem] [arxivNewItem, hfBlogItem] (by decide)

-- ---------- bounds on the group maximum and pipeline membership ----------

theorem foldl_max_bounds :
    ∀ (ds : List Int) (a : Int), a ≤ ds.foldl max a ∧ ∀ x ∈ ds, x ≤ ds.foldl max a := by
  intro ds
  induction ds with
  | nil => intro a; simp
  | cons d ds ih =>
    intro a
    have h := ih (max a d)
    refine ⟨le_trans (le_max_left a d) h.1, ?_⟩
    intro x hx
    rcases List.mem_cons.mp hx with he | hm
    · subst he
      exact le_trans (le_max_right a x) h.1
    · exact h.2 x hm

/-- Every member's date is at most the group's `max(dates)`. -/
theorem mem_le_maxPublished (g : Group) (x : RawItem) (hx : x ∈ g.items) :
    x.published_at ≤ maxPublished g := by
  unfold maxPublished
  cases hgi : g.items with
  | nil => rw [hgi] at hx; simp at hx
  | cons y ys =>
    rw [hgi] at hx
    simp only [List.map_cons]
    rcases List.mem_cons.mp hx with he | hm
    · subst he
      exact (foldl_max_bounds _ _).1
    · exact (foldl_max_bounds _ _).2 _ (List.mem_map_of_mem RawItem.published_at hm)

/-- Groups produced by the grouping pass are non-empty and their members
come from the input. -/
theorem mem_groupItems_facts (l : List RawItem) (g : Group) (hg : g ∈ groupItems l) :
    g.items ≠ [] ∧ ∀ x ∈ g.items, x ∈ l := by
  obtain ⟨hn, hk, hi⟩ := groupItems_sound l
  have hitems := hi g hg
  constructor
  · have hmem : g.key ∈ (groupItems l).map Group.key := List.mem_map_of_mem Group.key hg
    obtain ⟨x, hx, hxk⟩ := List.mem_map.mp ((hk g.key).mp hmem)
    have hxin : x ∈ g.items := by
      rw [hitems]
      exact List.mem_filter.mpr ⟨hx, by simp [hxk]⟩
    intro he
    rw [he] at hxin
    simp at hxin
  · intro x hx
    rw [hitems] at hx
    exact (List.mem_filter.mp hx).1

/-- A non-empty group has a best pick. -/
theorem bestOf_isSome (g : Group) (h : g.items ≠ []) : ∃ b, bestOf g = some b := by
  have hs : sortItemsDesc g.items ≠ [] := by
    intro he
    apply h
    have hp := List.perm_insertionSort (fun a b : RawItem => rankLe b a = true) g.items
    rw [sortItemsDesc] at he
    rw [he] at hp
    exact hp.symm.eq_nil
  cases hsort : sortItemsDesc g.items with
  | nil => exact absurd hsort hs
  | cons b t =>
    refine ⟨b, ?_⟩
    unfold bestOf
    rw [hsort]
    rfl

/-- Every pipeline output item is the output record of some group of the
surviving candidates. -/
theorem mem_runPipeline (today : Int) (cands : List RawItem) (o : OutItem)
    (ho : o ∈ runPipeline today cands) :
    ∃ g ∈ groupItems (surviveCutoff today cands), o = groupOut today g := by
  unfold runPipeline at ho
  by_cases hsur : surviveCutoff today cands = []
  · rw [if_pos hsur] at ho
    simp at ho
  · rw [if_neg hsur] at ho
    unfold selectItems sortOutDesc at ho
    have h1 := List.take_subset _ _ ho
    have h2 := (List.perm_insertionSort
      (fun a b : OutItem => hotKeyLe b a = true) _).mem_iff.mp h1
    obtain ⟨g, hg, he⟩ := List.mem_map.mp (List.mem_filter.mp h2).1
    exact ⟨g, hg, he.symm⟩

/-- The published date of a non-empty group's output record is the group's
maximal member date. -/
theorem groupOut_published (today : Int) (g : Group) (h : g.items ≠ []) :
    (groupOut today g).published_at = maxPublished g := by
  obtain ⟨b, hb⟩ := bestOf_isSome g h
  unfold groupOut
  rw [hb]

-- ---------- claim C7 ----------

/-- C7: no output item's `published_at` — the maximum published date over
the group's members — is more than `DAYS_BACK` days before today: each
member passed the ingestion cutoff, so the group maximum did too. -/
theorem c7_cutoff (today : Int) (cands : List RawItem) (o : OutItem)
    (ho : o ∈ runPipeline today cands) : today - o.published_at ≤ DAYS_BACK := by
  obtain ⟨g, hg, he⟩ := mem_runPipeline today cands o ho
  obtain ⟨hne, hsub⟩ := mem_groupItems_facts _ g hg
  obtain ⟨x, hx⟩ := List.exists_mem_of_ne_nil g.items hne
  have hxs : x ∈ surviveCutoff today cands := hsub x hx
  have hxcut : ¬ x.published_at < today - DAYS_BACK := by
    have := (List.mem_filter.mp hxs).2
    simpa using this
  have hmax := mem_le_maxPublished g x hx
  rw [he, groupOut_published today g hne]
  omega

/-- Witness for C7 at a concrete run. -/
theorem c7_cutoff_witness :
    100 - (groupOut 100 ⟨groupKey hfBlogItem, [hfBlogItem]⟩).published_at ≤ DAYS_BACK :=
  c7_cutoff 100 [hfBlogItem] _ (by decide)

-- ---------- the string order of `sorted(...)` ----------

theorem lexLt_asymm : ∀ a b, lexLt a b = true → lexLt b a = true → False := by
  intro a
  induction a with
  | nil =>
    intro b h1 h2
    cases b <;> simp [lexLt] at h1 h2
  | cons x xs ih =>
    intro b h1 h2
    cases b with
    | nil => simp [lexLt] at h1
    | cons y ys =>
      simp only [lexLt] at h1 h2
      split_ifs at h1 h2 <;>
        first
          | exact ih ys h1 h2
          | omega
          | simp_all

/-- Linearity: a string below `a` is below any `b`, unless `b` itself is
below `a`. -/
theorem lexLt_linear : ∀ c a b, lexLt c a = true →
    lexLt c b = true ∨ lexLt b a = true := by
  intro c
  induction c with
  | nil =>
    intro a b h
    cases a with
    | nil => simp [lexLt] at h
    | cons x xs =>
      cases b with
      | nil => right; simp [lexLt]
      | cons y ys => left; simp [lexLt]
  | cons z zs ih =>
    intro a b h
    cases a with
    | nil => simp [lexLt] at h
    | cons x xs =>
      cases b with
      | nil => right; simp [lexLt]
      | cons y ys =>
        simp only [lexLt] at h ⊢
        split_ifs at h ⊢ <;>
          first
            | exact ih xs ys h
            | (simp; done)
            | (exfalso; omega)
            | simp_all

theorem lexLe_total (a b : List Char) : lexLe a b = true ∨ lexLe b a = true := by
  unfold lexLe
  cases hab : lexLt a b with
  | false => right; simp
  | true =>
    cases hba : lexLt b a with
    | false => left; simp
    | true => exact absurd (lexLt_asymm a b hab hba) not_false

theorem lexLe_trans (a b c : List Char) (h1 : lexLe a b = true)
    (h2 : lexLe b c = true) : lexLe a c = true := by
  unfold lexLe at h1 h2 ⊢
  cases hca : lexLt c a with
  | false => simp
  | true =>
    rcases lexLt_linear c a b hca with h | h
    · rw [h] at h2; exact absurd h2 (by simp)
    · rw [h] at h1; exact absurd h1 (by simp)

/-- Python's `sorted` on strings, embedded as a stable insertion sort,
produces an ascending list. -/
theorem sortStrings_sorted (l : List (List Char)) :
    List.Sorted (fun a b => lexLe a b = true) (sortStrings l) :=
  @List.sorted_insertionSort (List Char) (fun a b => lexLe a b = true)
    (fun a b => instDecidableEqBool (lexLe a b) true) ⟨lexLe_total⟩
    ⟨lexLe_trans⟩ l

-- ---------- claim C5 ----------

/-- C5 counterexample: a concrete run in which the output element's field
names are exactly `title, source, published_at, url, ai_summary, tags,
hot_score, sources` — there is no `raw_snippet` and no `ai_generated`
field. -/
theorem c5_counterexample :
    (runPipeline 100 [hfBlogItem]).map (fun o => (resultKV o).map Prod.fst) = [resultKeys]
    ∧ "raw_snippet".toList ∉ resultKeys
    ∧ "ai_generated".toList ∉ resultKeys := by
  decide

/-- C5 (amended): every element of the output array carries exactly the
fields `title, url, source, published_at` (an ISO date), `ai_summary`
(initialized to the truncated RSS snippet, a placeholder until enrichment),
`tags` (a list), `hot_score` (an integer), and `sources` (a sorted list of
the contributing source names); there are no `raw_snippet` or `ai_generated`
fields. -/
theorem c5_output_fields (today : Int) (cands : List RawItem) (o : OutItem)
    (ho : o ∈ runPipeline today cands) :
    (resultKV o).map Prod.fst = resultKeys
    ∧ List.Sorted (fun a b => lexLe a b = true) o.sources := by
  refine ⟨rfl, ?_⟩
  obtain ⟨g, hg, he⟩ := mem_runPipeline today cands o ho
  subst he
  unfold groupOut
  cases hb : bestOf g with
  | none => exact List.sorted_nil
  | some b => exact sortStrings_sorted _

/-- Witness for C5 at a concrete run. -/
theorem c5_output_fields_witness :
    (resultKV (groupOut 100 ⟨groupKey hfBlogItem, [hfBlogItem]⟩)).map Prod.fst = resultKeys
    ∧ List.Sorted (fun a b => lexLe a b = true)
        (groupOut 100 ⟨groupKey hfBlogItem, [hfBlogItem]⟩).sources :=
  c5_output_fields 100 [hfBlogItem] _ (by decide)

-- ---------- claim C4 ----------

/-- C4 counterexample: a five-day-old arXiv entry survives ingestion (so
entries did survive), yet the output array is empty — its group's hot score
3 falls below `MIN_HOT_SCORE = 8`, so "no entries survived ingestion" is
not the only path to an empty output. -/
theorem c4_counterexample :
    surviveCutoff 100 [arxivOldItem] ≠ [] ∧ runPipeline 100 [arxivOldItem] = [] := by
  decide

/-- C4 (amended): the run produces an empty output array precisely when no
entries survived ingestion or when every group's hot score is below
`MIN_HOT_SCORE`; both are valid, non-error terminal states, and in either
case the text written to the output file is the two-character JSON array
`[]` (written directly on the empty-ingestion early return, and as the JSON
dump of the empty list otherwise), so downstream consumers receive valid
JSON. -/
theorem c4_empty_output (today : Int) (cands : List RawItem) :
    (runPipeline today cands = [] ↔
      (surviveCutoff today cands = []
        ∨ ∀ o ∈ (groupItems (surviveCutoff today cands)).map (groupOut today),
            o.hot_score < MIN_HOT_SCORE))
    ∧ (runPipeline today cands = [] → writtenText today cands = "[]".toList) := by
  by_cases hsur : surviveCutoff today cands = []
  · unfold runPipeline writtenText
    rw [if_pos hsur, if_pos hsur]
    simp [hsur]
  · unfold runPipeline writtenText
    rw [if_neg hsur, if_neg hsur]
    constructor
    · constructor
      · intro he
        right
        intro o ho
        unfold selectItems sortOutDesc at he
        rcases List.take_eq_nil_iff.mp he with h60 | hnil
        · exact absurd h60 (by decide)
        · have hperm := List.perm_insertionSort
            (fun a b : OutItem => hotKeyLe b a = true)
            (((groupItems (surviveCutoff today cands)).map (groupOut today)).filter
              (fun x => decide (MIN_HOT_SCORE ≤ x.hot_score)))
          rw [hnil] at hperm
          have hfil := hperm.symm.eq_nil
          have := List.filter_eq_nil_iff.mp hfil o ho
          simpa using this
      · intro hall
        rcases hall with h | hall
        · exact absurd h hsur
        · unfold selectItems sortOutDesc
          have hfil : ((groupItems (surviveCutoff today cands)).map
              (groupOut today)).filter (fun x => decide (MIN_HOT_SCORE ≤ x.hot_score)) = [] := by
            apply List.filter_eq_nil_iff.mpr
            intro o ho
            have := hall o ho
            simpa using (by omega : ¬ MIN_HOT_SCORE ≤ o.hot_score)
          rw [hfil]
          rfl
    · intro he
      have hrp : runPipeline today cands = [] := by
        unfold runPipeline
        rw [if_neg hsur]
        exact he
      rw [hrp]
      rfl

/-- Witness for C4 (amended): the below-threshold run still writes the
two-character empty JSON array. -/
theorem c4_empty_output_witness :
    writtenText 100 [arxivOldItem] = "[]".toList :=
  (c4_empty_output 100 [arxivOldItem]).2 (by decide)

-- ---------- the enrichment pass (claim C9) ----------

theorem mem_sortStrings (t : List Char) (l : List (List Char)) :
    t ∈ sortStrings l ↔ t ∈ l :=
  (List.perm_insertionSort (fun a b => lexLe a b = true) l).mem_iff

/-- The function `simple_tags` only produces tag names of the fixed vocabulary. -/
theorem mem_simple_tags_vocab (t : List Char) (x : List Char)
    (ht : t ∈ simple_tags x) : t ∈ tagVocabulary := by
  unfold simple_tags at ht
  rw [mem_sortStrings] at ht
  have ht' := List.mem_dedup.mp ht
  obtain ⟨p, hp, he⟩ := List.mem_map.mp ht'
  exact List.mem_map.mpr ⟨p, List.mem_of_mem_filter hp, he⟩

/-- The enrichment loop, from any starting index: length-preserving, and
each output position holds either the untouched input item of that position
or its `summarize_one` rewrite. -/
theorem enrichFrom_facts (oracle : Nat → Option (List Char)) :
    ∀ (items : List OutItem) (j : Nat),
      (enrichFrom oracle j items).length = items.length
      ∧ ∀ (i : Nat) (a b : OutItem), (enrichFrom oracle j items)[i]? = some a →
          items[i]? = some b → (a = b ∨ ∃ text, a = summarize_one text b) := by
  intro items
  induction items with
  | nil =>
    intro j
    refine ⟨rfl, ?_⟩
    intro i a b ha
    simp [enrichFrom] at ha
  | cons it rest ih =>
    intro j
    constructor
    · simp only [enrichFrom, List.length_cons, (ih (j + 1)).1]
    · intro i a b ha hb
      match i with
      | 0 =>
        simp only [enrichFrom, List.getElem?_cons_zero, Option.some.injEq] at ha hb
        subst hb
        by_cases hskip : skipEnrich it = true
        · left
          rw [← ha]
          simp [hskip]
        · cases horc : oracle j with
          | none =>
            left
            rw [← ha]
            simp [hskip, horc]
          | some text =>
            right
            refine ⟨text, ?_⟩
            rw [← ha]
            simp [hskip, horc]
      | Nat.succ n =>
        simp only [enrichFrom, List.getElem?_cons_succ] at ha hb
        exact (ih (j + 1)).2 n a b ha hb

/-- C9: the enrichment pass preserves the array's length and order
(position by position), leaves every item's `hot_score`, `published_at`,
`sources`, `url`, `title` (and `source`) unchanged, and modifies only
`ai_summary` (replaced by the cleaned generated summary) and `tags` (the
old tags survive, and every new tag comes from the fixed keyword-derived
vocabulary, merged as a sorted, deduplicated set union). -/
theorem c9_enrichment_frame (oracle : Nat → Option (List Char)) (items : List OutItem) :
    (enrich oracle items).length = items.length
    ∧ ∀ (i : Nat) (a b : OutItem), (enrich oracle items)[i]? = some a →
        items[i]? = some b →
        a.hot_score = b.hot_score ∧ a.published_at = b.published_at
          ∧ a.sources = b.sources ∧ a.url = b.url ∧ a.title = b.title
          ∧ a.source = b.source
          ∧ (∀ t ∈ b.tags, t ∈ a.tags)
          ∧ (∀ t ∈ a.tags, t ∈ b.tags ∨ t ∈ tagVocabulary)
          ∧ (a = b ∨ ∃ text, a = summarize_one text b) := by
  obtain ⟨hlen, hpos⟩ := enrichFrom_facts oracle items 0
  refine ⟨hlen, ?_⟩
  intro i a b ha hb
  have hcase := hpos i a b ha hb
  rcases hcase with he | ⟨text, he⟩
  · subst he
    refine ⟨rfl, rfl, rfl, rfl, rfl, rfl, fun t ht => ht, fun t ht => Or.inl ht, Or.inl rfl⟩
  · subst he
    unfold summarize_one
    refine ⟨rfl, rfl, rfl, rfl, rfl, rfl, ?_, ?_, Or.inr ⟨text, rfl⟩⟩
    · intro t ht
      simp only
      rw [mem_sortStrings, List.mem_dedup]
      exact List.mem_append.mpr (Or.inl ht)
    · intro t ht
      simp only at ht
      rw [mem_sortStrings, List.mem_dedup] at ht
      rcases List.mem_append.mp ht with h | h
      · exact Or.inl h
      · exact Or.inr (mem_simple_tags_vocab t _ h)

/-- Witness for C9: a one-item snapshot with a failing oracle (the
summarization call raises), so the item passes through untouched. -/
theorem c9_enrichment_frame_witness :
    sampleOut.hot_score = sampleOut.hot_score
    ∧ sampleOut.published_at = sampleOut.published_at
    ∧ sampleOut.sources = sampleOut.sources ∧ sampleOut.url = sampleOut.url
    ∧ sampleOut.title = sampleOut.title ∧ sampleOut.source = sampleOut.source
    ∧ (∀ t ∈ sampleOut.tags, t ∈ sampleOut.tags)
    ∧ (∀ t ∈ sampleOut.tags, t ∈ sampleOut.tags ∨ t ∈ tagVocabulary)
    ∧ (sampleOut = sampleOut ∨ ∃ text, sampleOut = summarize_one text sampleOut) :=
  (c9_enrichment_frame (fun _ => none) [sampleOut]).2 0 sampleOut sampleOut
    (by decide) (by decide)

-- ---------- character-level facts for title normalization (claim C8) ----------

theorem lowerChar_toNat_of_upper (c : Char) (h : 'A' ≤ c ∧ c ≤ 'Z') :
    (lowerChar c).toNat = c.toNat + 32 := by
  unfold lowerChar
  rw [if_pos h]
  have hv : (c.toNat + 32).isValidChar := by
    have h2 : c.toNat ≤ 90 := h.2
    exact Or.inl (by omega)
  unfold Char.ofNat
  rw [dif_pos hv]
  rfl

theorem lowerChar_eq_self (c : Char) (h : ¬ ('A' ≤ c ∧ c ≤ 'Z')) : lowerChar c = c := by
  unfold lowerChar
  rw [if_neg h]

theorem upper_bounds_of_le (c : Char) (h : 'A' ≤ c ∧ c ≤ 'Z') :
    65 ≤ c.toNat ∧ c.toNat ≤ 90 :=
  ⟨h.1, h.2⟩

theorem lowerChar_idem (c : Char) : lowerChar (lowerChar c) = lowerChar c := by
  by_cases h : 'A' ≤ c ∧ c ≤ 'Z'
  · have ht := lowerChar_toNat_of_upper c h
    have hb := upper_bounds_of_le c h
    apply lowerChar_eq_self
    intro hcon
    have := upper_bounds_of_le _ hcon
    omega
  · rw [lowerChar_eq_self c h, lowerChar_eq_self c h]

theorem char_eq_iff_toNat (a b : Char) : a = b ↔ a.toNat = b.toNat :=
  ⟨congrArg Char.toNat, fun h => Char.ext (UInt32.ext h)⟩

theorem isWs_iff (c : Char) :
    isWs c = true ↔ (c.toNat = 32 ∨ c.toNat = 9 ∨ c.toNat = 10 ∨ c.toNat = 13
      ∨ c.toNat = 11 ∨ c.toNat = 12) := by
  unfold isWs
  simp only [Bool.or_eq_true, beq_iff_eq, char_eq_iff_toNat c]
  rw [show (' ' : Char).toNat = 32 from by decide,
    show ('\t' : Char).toNat = 9 from by decide,
    show ('\n' : Char).toNat = 10 from by decide,
    show ('\r' : Char).toNat = 13 from by decide,
    show (Char.ofNat 11).toNat = 11 from by decide,
    show (Char.ofNat 12).toNat = 12 from by decide]
  tauto

theorem punct_toNat_not_upper : ∀ c ∈ punctChars, ¬ (65 ≤ c.toNat ∧ c.toNat ≤ 90) := by
  decide

theorem punct_toNat_not_lower : ∀ c ∈ punctChars, ¬ (97 ≤ c.toNat ∧ c.toNat ≤ 122) := by
  decide

theorem isWs_lowerChar (c : Char) : isWs (lowerChar c) = isWs c := by
  by_cases h : 'A' ≤ c ∧ c ≤ 'Z'
  · have hb := upper_bounds_of_le c h
    have ht := lowerChar_toNat_of_upper c h
    have h1 : isWs (lowerChar c) = false := by
      rw [Bool.eq_false_iff]
      intro hw
      rw [isWs_iff] at hw
      omega
    have h2 : isWs c = false := by
      rw [Bool.eq_false_iff]
      intro hw
      rw [isWs_iff] at hw
      omega
    rw [h1, h2]
  · rw [lowerChar_eq_self c h]

theorem mem_punct_lowerChar (c : Char) : lowerChar c ∈ punctChars ↔ c ∈ punctChars := by
  by_cases h : 'A' ≤ c ∧ c ≤ 'Z'
  · have hb := upper_bounds_of_le c h
    have ht := lowerChar_toNat_of_upper c h
    apply iff_of_false
    · intro hp
      exact punct_toNat_not_lower _ hp (by omega)
    · intro hp
      exact punct_toNat_not_upper _ hp (by omega)
  · rw [lowerChar_eq_self c h]

theorem lowerChar_eq_iff_outside (c d : Char) (hd1 : ¬ (65 ≤ d.toNat ∧ d.toNat ≤ 90))
    (hd2 : ¬ (97 ≤ d.toNat ∧ d.toNat ≤ 122)) : lowerChar c = d ↔ c = d := by
  by_cases h : 'A' ≤ c ∧ c ≤ 'Z'
  · have hb := upper_bounds_of_le c h
    have ht := lowerChar_toNat_of_upper c h
    apply iff_of_false
    · intro he
      have := congrArg Char.toNat he
      omega
    · intro he
      have := congrArg Char.toNat he
      omega
  · rw [lowerChar_eq_self c h]

theorem isSep_lowerChar (c : Char) : isSep (lowerChar c) = isSep c := by
  unfold isSep
  rw [isWs_lowerChar,
    show (decide (lowerChar c ∈ punctChars)) = decide (c ∈ punctChars) from
      decide_eq_decide.mpr (mem_punct_lowerChar c)]

-- ---------- whitespace-collapse and strip lemmas (claim C8) ----------

theorem subWsAux_cons_ws_true (c : Char) (r : List Char) (h : isWs c = true) :
    subWsAux true (c :: r) = subWsAux true r := by
  simp [subWsAux, h]

theorem subWsAux_cons_ws_false (c : Char) (r : List Char) (h : isWs c = true) :
    subWsAux false (c :: r) = ' ' :: subWsAux true r := by
  simp [subWsAux, h]

theorem subWsAux_cons_word (b : Bool) (c : Char) (r : List Char) (h : isWs c = false) :
    subWsAux b (c :: r) = c :: subWsAux false r := by
  simp [subWsAux, h]

theorem subWsAux_append_word :
    ∀ (w : List Char), (∀ c ∈ w, isWs c = false) → ∀ r,
      subWsAux false (w ++ r) = w ++ subWsAux false r := by
  intro w
  induction w with
  | nil => intro _ r; rfl
  | cons c w ih =>
    intro hw r
    rw [List.cons_append, subWsAux_cons_word false c _ (hw c (List.mem_cons_self c w)),
      ih (fun d hd => hw d (List.mem_cons_of_mem c hd)) r, List.cons_append]

theorem head_subWsAux_true :
    ∀ (r : List Char) (c : Char), (subWsAux true r).head? = some c → isWs c = false := by
  intro r
  induction r with
  | nil => intro c h; simp [subWsAux] at h
  | cons d r ih =>
    intro c h
    cases hd : isWs d with
    | true => rw [subWsAux_cons_ws_true d r hd] at h; exact ih c h
    | false =>
      rw [subWsAux_cons_word true d r hd, List.head?_cons, Option.some.injEq] at h
      rw [← h]
      exact hd

theorem pyStrip_nil : pyStrip [] = [] := rfl

theorem pyRstrip_nil : pyRstrip [] = [] := rfl

theorem pyStrip_cons_ws (c : Char) (X : List Char) (h : isWs c = true) :
    pyStrip (c :: X) = pyStrip X := by
  unfold pyStrip
  rw [List.dropWhile_cons, if_pos h]

theorem pyStrip_eq_pyRstrip (X : List Char)
    (h : ∀ c, X.head? = some c → isWs c = false) : pyStrip X = pyRstrip X := by
  cases X with
  | nil => rfl
  | cons c X' =>
    unfold pyStrip pyRstrip
    rw [List.dropWhile_cons, if_neg (by simp [h c rfl])]

theorem pyRstrip_eq_nil_iff (X : List Char) :
    pyRstrip X = [] ↔ ∀ c ∈ X, isWs c = true := by
  unfold pyRstrip
  rw [List.reverse_eq_nil_iff, List.dropWhile_eq_nil_iff]
  constructor
  · intro h c hc
    exact h c (List.mem_reverse.mpr hc)
  · intro h c hc
    exact h c (List.mem_reverse.mp hc)

theorem pyRstrip_append_word (w X : List Char) (hw : ∀ c ∈ w, isWs c = false) :
    pyRstrip (w ++ X) = w ++ pyRstrip X := by
  have hwrev : w.reverse.dropWhile isWs = w.reverse := by
    cases hwr : w.reverse with
    | nil => rfl
    | cons d t =>
      rw [List.dropWhile_cons, if_neg]
      have hd : d ∈ w := List.mem_reverse.mp (by rw [hwr]; exact List.mem_cons_self d t)
      simp [hw d hd]
  unfold pyRstrip
  rw [List.reverse_append, List.dropWhile_append]
  cases hD : X.reverse.dropWhile isWs with
  | nil =>
    simp only [List.isEmpty_nil, if_true, List.reverse_nil, List.append_nil]
    rw [hwrev, List.reverse_reverse]
  | cons d t =>
    simp only [List.isEmpty_cons, Bool.false_eq_true, if_false]
    rw [List.reverse_append, List.reverse_reverse]

theorem pyRstrip_cons_space (X : List Char) :
    pyRstrip (' ' :: X) = if pyRstrip X = [] then [] else ' ' :: pyRstrip X := by
  unfold pyRstrip
  rw [show (' ' :: X : List Char) = [' '] ++ X from rfl, List.reverse_append,
    List.dropWhile_append]
  cases hD : X.reverse.dropWhile isWs with
  | nil =>
    simp only [List.isEmpty_nil, if_true, List.reverse_nil]
    decide
  | cons d t =>
    simp only [List.isEmpty_cons, Bool.false_eq_true, if_false]
    rw [if_neg (by simp), List.reverse_append]
    rfl

-- ---------- word-splitting lemmas (claim C8) ----------

theorem wordsWs_nil : wordsWs [] = [] := by
  simp [wordsWs]

theorem wordsWs_cons_ws (c : Char) (r : List Char) (h : isWs c = true) :
    wordsWs (c :: r) = wordsWs r := by
  rw [wordsWs]
  simp [h]

theorem wordsWs_cons_word (c : Char) (r : List Char) (h : isWs c = false) :
    wordsWs (c :: r) = (c :: r.takeWhile (fun d => !isWs d)) ::
      wordsWs (r.dropWhile (fun d => !isWs d)) := by
  rw [wordsWs]
  simp [h]

theorem wordsBySep_nil : wordsBySep [] = [] := by
  simp [wordsBySep]

theorem wordsBySep_cons_sep (c : Char) (r : List Char) (h : isSep c = true) :
    wordsBySep (c :: r) = wordsBySep r := by
  rw [wordsBySep]
  simp [h]

theorem wordsBySep_cons_word (c : Char) (r : List Char) (h : isSep c = false) :
    wordsBySep (c :: r) = (c :: r.takeWhile (fun d => !isSep d)) ::
      wordsBySep (r.dropWhile (fun d => !isSep d)) := by
  rw [wordsBySep]
  simp [h]

theorem dropWhile_head_not {α : Type} (p : α → Bool) :
    ∀ (l : List α) (d : α) (t : List α), l.dropWhile p = d :: t → p d = false := by
  intro l
  induction l with
  | nil => intro d t h; simp at h
  | cons c r ih =>
    intro d t h
    rw [List.dropWhile_cons] at h
    by_cases hc : p c = true
    · rw [if_pos hc] at h
      exact ih d t h
    · rw [if_neg hc] at h
      cases h
      simpa using hc

theorem wordsWs_sound :
    ∀ (n : Nat) (l : List Char), l.length ≤ n →
      ∀ w ∈ wordsWs l, w ≠ [] ∧ ∀ c ∈ w, isWs c = false := by
  intro n
  induction n with
  | zero =>
    intro l hl
    have : l = [] := List.eq_nil_of_length_eq_zero (Nat.le_zero.mp hl)
    subst this
    rw [wordsWs_nil]
    intro w hw
    simp at hw
  | succ n ih =>
    intro l hl
    cases l with
    | nil =>
      rw [wordsWs_nil]
      intro w hw
      simp at hw
    | cons c r =>
      simp only [List.length_cons] at hl
      cases hc : isWs c with
      | true =>
        rw [wordsWs_cons_ws c r hc]
        exact ih r (by omega)
      | false =>
        rw [wordsWs_cons_word c r hc]
        intro w hw
        rcases List.mem_cons.mp hw with he | hm
        · subst he
          refine ⟨by simp, ?_⟩
          intro d hd
          rcases List.mem_cons.mp hd with he' | hm'
          · subst he'; exact hc
          · have := List.mem_takeWhile_imp hm'
            simpa using this
        · have hlen : (r.dropWhile (fun d => !isWs d)).length ≤ n := by
            have : (r.dropWhile (fun d => !isWs d)).length ≤ r.length :=
              (List.dropWhile_sublist _).length_le
            omega
          exact ih _ hlen w hm

theorem wordsBySep_sound :
    ∀ (n : Nat) (l : List Char), l.length ≤ n →
      ∀ w ∈ wordsBySep l, w ≠ [] ∧ ∀ c ∈ w, isSep c = false := by
  intro n
  induction n with
  | zero =>
    intro l hl
    have : l = [] := List.eq_nil_of_length_eq_zero (Nat.le_zero.mp hl)
    subst this
    rw [wordsBySep_nil]
    intro w hw
    simp at hw
  | succ n ih =>
    intro l hl
    cases l with
    | nil =>
      rw [wordsBySep_nil]
      intro w hw
      simp at hw
    | cons c r =>
      simp only [List.length_cons] at hl
      cases hc : isSep c with
      | true =>
        rw [wordsBySep_cons_sep c r hc]
        exact ih r (by omega)
      | false =>
        rw [wordsBySep_cons_word c r hc]
        intro w hw
        rcases List.mem_cons.mp hw with he | hm
        · subst he
          refine ⟨by simp, ?_⟩
          intro d hd
          rcases List.mem_cons.mp hd with he' | hm'
          · subst he'; exact hc
          · have := List.mem_takeWhile_imp hm'
            simpa using this
        · have hlen : (r.dropWhile (fun d => !isSep d)).length ≤ n := by
            have : (r.dropWhile (fun d => !isSep d)).length ≤ r.length :=
              (List.dropWhile_sublist _).length_le
            omega
          exact ih _ hlen w hm

theorem intercalate_nil_words : List.intercalate [' '] ([] : List (List Char)) = [] := by
  simp [List.intercalate]

theorem intercalate_single (w : List Char) : List.intercalate [' '] [w] = w := by
  simp [List.intercalate]

theorem intercalate_cons_cons (w w' : List Char) (ws : List (List Char)) :
    List.intercalate [' '] (w :: w' :: ws) =
      w ++ ' ' :: List.intercalate [' '] (w' :: ws) := by
  simp [List.intercalate, List.intersperse_cons_cons]

theorem intercalate_ne_nil (w : List Char) (ws : List (List Char)) (h : w ≠ []) :
    List.intercalate [' '] (w :: ws) ≠ [] := by
  cases ws with
  | nil => rw [intercalate_single]; exact h
  | cons w' ws' =>
    rw [intercalate_cons_cons]
    simp [h]

/-- The core of the whitespace collapse: after an already-emitted space, the
scan's remaining output, right-stripped, is exactly the space-joined
whitespace-free words of the remaining input. -/
theorem pyRstrip_subWsAux_true :
    ∀ (n : Nat) (r : List Char), r.length ≤ n →
      pyRstrip (subWsAux true r) = List.intercalate [' '] (wordsWs r) := by
  intro n
  induction n with
  | zero =>
    intro r hr
    have : r = [] := List.eq_nil_of_length_eq_zero (Nat.le_zero.mp hr)
    subst this
    rw [wordsWs_nil, intercalate_nil_words]
    rfl
  | succ n ih =>
    intro r hr
    cases r with
    | nil =>
      rw [wordsWs_nil, intercalate_nil_words]
      rfl
    | cons c r' =>
      simp only [List.length_cons] at hr
      cases hc : isWs c with
      | true =>
        rw [subWsAux_cons_ws_true c r' hc, wordsWs_cons_ws c r' hc]
        exact ih r' (by omega)
      | false =>
        rw [subWsAux_cons_word true c r' hc, wordsWs_cons_word c r' hc]
        have htwf : ∀ d ∈ r'.takeWhile (fun d => !isWs d), isWs d = false := by
          intro d hd
          have := List.mem_takeWhile_imp hd
          simpa using this
        have hcw : ∀ d ∈ (c :: r'.takeWhile (fun d => !isWs d)), isWs d = false := by
          intro d hd
          rcases List.mem_cons.mp hd with he | hm
          · subst he; exact hc
          · exact htwf d hm
        have h1 : subWsAux false r' =
            r'.takeWhile (fun d => !isWs d) ++
              subWsAux false (r'.dropWhile (fun d => !isWs d)) := by
          conv_lhs => rw [← List.takeWhile_append_dropWhile (fun d => !isWs d) r']
          exact subWsAux_append_word _ htwf _
        rw [h1,
          show c :: (r'.takeWhile (fun d => !isWs d) ++
              subWsAux false (r'.dropWhile (fun d => !isWs d))) =
            (c :: r'.takeWhile (fun d => !isWs d)) ++
              subWsAux false (r'.dropWhile (fun d => !isWs d)) from rfl,
          pyRstrip_append_word _ _ hcw]
        cases hdwc : r'.dropWhile (fun d => !isWs d) with
        | nil =>
          rw [wordsWs_nil, intercalate_single]
          simp [subWsAux, pyRstrip_nil]
        | cons d dr =>
          have hd : isWs d = true := by
            have := dropWhile_head_not (fun d => !isWs d) r' d dr hdwc
            simpa using this
          have hlen : dr.length ≤ n := by
            have h2 : (r'.dropWhile (fun d => !isWs d)).length ≤ r'.length :=
              (List.dropWhile_sublist _).length_le
            rw [hdwc] at h2
            simp only [List.length_cons] at h2
            omega
          rw [subWsAux_cons_ws_false d dr hd, pyRstrip_cons_space, ih dr hlen,
            wordsWs_cons_ws d dr hd]
          cases hwdr : wordsWs dr with
          | nil =>
            rw [intercalate_nil_words, if_pos rfl, intercalate_single]
            simp
          | cons w ws' =>
            have hwne : w ≠ [] :=
              (wordsWs_sound dr.length dr le_rfl w
                (by rw [hwdr]; exact List.mem_cons_self w ws')).1
            rw [if_neg (intercalate_ne_nil w ws' hwne), intercalate_cons_cons]

/-- The cleaned string `strip(sub(r"\s+", " ", l))` is the space-joined list of the
whitespace-free words of `l`. -/
theorem pyStrip_subWs (l : List Char) :
    pyStrip (subWs l) = List.intercalate [' '] (wordsWs l) := by
  unfold subWs
  cases l with
  | nil =>
    rw [wordsWs_nil, intercalate_nil_words]
    rfl
  | cons c r =>
    cases hc : isWs c with
    | true =>
      rw [subWsAux_cons_ws_false c r hc, pyStrip_cons_ws ' ' _ (by decide),
        wordsWs_cons_ws c r hc,
        pyStrip_eq_pyRstrip _ (head_subWsAux_true r)]
      exact pyRstrip_subWsAux_true r.length r le_rfl
    | false =>
      rw [subWsAux_cons_word false c r hc,
        ← subWsAux_cons_word true c r hc,
        pyStrip_eq_pyRstrip _ ?_]
      · exact pyRstrip_subWsAux_true (c :: r).length (c :: r) le_rfl
      · intro d hd
        rw [subWsAux_cons_word true c r hc, List.head?_cons, Option.some.injEq] at hd
        rw [← hd]
        exact hc

-- ---------- punctuation-to-space and split lemmas (claim C8) ----------

theorem isWs_punctSpace (c : Char) :
    isWs (if c ∈ punctChars then ' ' else c) = isSep c := by
  by_cases hp : c ∈ punctChars
  · rw [if_pos hp]
    simp [isSep, hp]
    decide
  · rw [if_neg hp]
    simp [isSep, hp]

theorem punctSpace_eq_self (c : Char) (h : isSep c = false) :
    (if c ∈ punctChars then ' ' else c) = c := by
  rw [if_neg]
  intro hp
  simp [isSep, hp] at h

theorem takeWhile_all {α : Type} (p : α → Bool) :
    ∀ l : List α, (∀ c ∈ l, p c = true) → l.takeWhile p = l := by
  intro l
  induction l with
  | nil => intro _; rfl
  | cons c r ih =>
    intro h
    rw [List.takeWhile_cons, if_pos (h c (List.mem_cons_self c r)),
      ih (fun d hd => h d (List.mem_cons_of_mem c hd))]

theorem dropWhile_all {α : Type} (p : α → Bool) :
    ∀ l : List α, (∀ c ∈ l, p c = true) → l.dropWhile p = [] := by
  intro l
  induction l with
  | nil => intro _; rfl
  | cons c r ih =>
    intro h
    rw [List.dropWhile_cons, if_pos (h c (List.mem_cons_self c r))]
    exact ih (fun d hd => h d (List.mem_cons_of_mem c hd))

theorem takeWhile_append_all {α : Type} (p : α → Bool) :
    ∀ (xs ys : List α), (∀ c ∈ xs, p c = true) →
      (xs ++ ys).takeWhile p = xs ++ ys.takeWhile p := by
  intro xs ys
  induction xs with
  | nil => intro _; rfl
  | cons c r ih =>
    intro h
    rw [List.cons_append, List.takeWhile_cons, if_pos (h c (List.mem_cons_self c r)),
      ih (fun d hd => h d (List.mem_cons_of_mem c hd)), List.cons_append]

theorem dropWhile_append_all {α : Type} (p : α → Bool) :
    ∀ (xs ys : List α), (∀ c ∈ xs, p c = true) →
      (xs ++ ys).dropWhile p = ys.dropWhile p := by
  intro xs ys
  induction xs with
  | nil => intro _; rfl
  | cons c r ih =>
    intro h
    rw [List.cons_append, List.dropWhile_cons, if_pos (h c (List.mem_cons_self c r))]
    exact ih (fun d hd => h d (List.mem_cons_of_mem c hd))

theorem takeWhile_append_of_stuck {α : Type} (p : α → Bool) :
    ∀ (xs ys : List α) (d : α) (t : List α), xs.dropWhile p = d :: t →
      (xs ++ ys).takeWhile p = xs.takeWhile p
      ∧ (xs ++ ys).dropWhile p = (d :: t) ++ ys := by
  intro xs
  induction xs with
  | nil => intro ys d t h; simp at h
  | cons c r ih =>
    intro ys d t h
    rw [List.dropWhile_cons] at h
    by_cases hc : p c = true
    · rw [if_pos hc] at h
      obtain ⟨h1, h2⟩ := ih ys d t h
      constructor
      · rw [List.cons_append, List.takeWhile_cons, if_pos hc, h1,
          List.takeWhile_cons, if_pos hc]
      · rw [List.cons_append, List.dropWhile_cons, if_pos hc, h2]
    · rw [if_neg hc] at h
      constructor
      · rw [List.cons_append, List.takeWhile_cons, if_neg hc,
          List.takeWhile_cons, if_neg hc]
      · rw [List.cons_append, List.dropWhile_cons, if_neg hc, ← h]
        rfl

/-- Mapping the stripped punctuation class to spaces turns separator-words
into whitespace-words. -/
theorem wordsWs_subPunct :
    ∀ (n : Nat) (l : List Char), l.length ≤ n → wordsWs (subPunct l) = wordsBySep l := by
  intro n
  induction n with
  | zero =>
    intro l hl
    have : l = [] := List.eq_nil_of_length_eq_zero (Nat.le_zero.mp hl)
    subst this
    rw [show subPunct [] = [] from rfl, wordsWs_nil, wordsBySep_nil]
  | succ n ih =>
    intro l hl
    cases l with
    | nil => rw [show subPunct [] = [] from rfl, wordsWs_nil, wordsBySep_nil]
    | cons c r =>
      simp only [List.length_cons] at hl
      rw [show subPunct (c :: r) =
        (if c ∈ punctChars then ' ' else c) :: subPunct r from rfl]
      cases hs : isSep c with
      | true =>
        rw [wordsWs_cons_ws _ _ (by rw [isWs_punctSpace]; exact hs),
          wordsBySep_cons_sep c r hs]
        exact ih r (by omega)
      | false =>
        have hw : isWs c = false := by
          cases hw : isWs c
          · rfl
          · simp [isSep, hw] at hs
        rw [punctSpace_eq_self c hs, wordsWs_cons_word c _ hw,
          wordsBySep_cons_word c r hs]
        have hpred : ∀ d : Char,
            ((fun d => !isWs d) ∘ (fun c => if c ∈ punctChars then ' ' else c)) d
              = (fun d => !isSep d) d := by
          intro d
          simp only [Function.comp]
          rw [isWs_punctSpace]
        have htake : (subPunct r).takeWhile (fun d => !isWs d) =
            r.takeWhile (fun d => !isSep d) := by
          show (r.map (fun c => if c ∈ punctChars then ' ' else c)).takeWhile _ = _
          rw [List.takeWhile_map]
          rw [show ((fun d => !isWs d) ∘ fun c => if c ∈ punctChars then ' ' else c)
            = (fun d => !isSep d) from funext hpred]
          have hmem : ∀ d ∈ r.takeWhile (fun d => !isSep d),
              (fun c => if c ∈ punctChars then ' ' else c) d = id d := by
            intro d hd
            have := List.mem_takeWhile_imp hd
            exact punctSpace_eq_self d (by simpa using this)
          rw [List.map_congr_left hmem, List.map_id]
        have hdrop : (subPunct r).dropWhile (fun d => !isWs d) =
            subPunct (r.dropWhile (fun d => !isSep d)) := by
          show (r.map (fun c => if c ∈ punctChars then ' ' else c)).dropWhile _ = _
          rw [List.dropWhile_map]
          rw [show ((fun d => !isWs d) ∘ fun c => if c ∈ punctChars then ' ' else c)
            = (fun d => !isSep d) from funext hpred]
          rfl
        rw [htake, hdrop]
        have hlen : (r.dropWhile (fun d => !isSep d)).length ≤ n := by
          have : (r.dropWhile (fun d => !isSep d)).length ≤ r.length :=
            (List.dropWhile_sublist _).length_le
          omega
        rw [ih _ hlen]

/-- Splitting a word list at a separator character. -/
theorem wordsBySep_split :
    ∀ (n : Nat) (a : List Char), a.length ≤ n → ∀ (s : Char) (b : List Char),
      isSep s = true → wordsBySep (a ++ s :: b) = wordsBySep a ++ wordsBySep b := by
  intro n
  induction n with
  | zero =>
    intro a ha s b hs
    have : a = [] := List.eq_nil_of_length_eq_zero (Nat.le_zero.mp ha)
    subst this
    rw [List.nil_append, wordsBySep_cons_sep s b hs, wordsBySep_nil, List.nil_append]
  | succ n ih =>
    intro a ha s b hs
    cases a with
    | nil =>
      rw [List.nil_append, wordsBySep_cons_sep s b hs, wordsBySep_nil, List.nil_append]
    | cons c a' =>
      simp only [List.length_cons] at ha
      cases hc : isSep c with
      | true =>
        rw [List.cons_append, wordsBySep_cons_sep c _ hc, wordsBySep_cons_sep c _ hc]
        exact ih a' (by omega) s b hs
      | false =>
        rw [List.cons_append, wordsBySep_cons_word c _ hc, wordsBySep_cons_word c _ hc]
        cases hdw : a'.dropWhile (fun d => !isSep d) with
        | nil =>
          have hall : ∀ d ∈ a', (fun d => !isSep d) d = true := by
            rw [← List.dropWhile_eq_nil_iff]
            exact hdw
          rw [takeWhile_all _ a' hall]
          rw [wordsBySep_nil]
          rw [takeWhile_append_all _ a' (s :: b) hall]
          rw [dropWhile_append_all _ a' (s :: b) hall]
          rw [List.takeWhile_cons, if_neg (by simp [hs])]
          rw [List.dropWhile_cons, if_neg (by simp [hs])]
          rw [wordsBySep_cons_sep s b hs, List.append_nil]
          rfl
        | cons d t =>
          obtain ⟨h1, h2⟩ := takeWhile_append_of_stuck (fun d => !isSep d) a' (s :: b) d t hdw
          have hd : isSep d = true := by
            have := dropWhile_head_not (fun d => !isSep d) a' d t hdw
            simpa using this
          rw [h1, h2, List.cons_append, wordsBySep_cons_sep d _ hd,
            wordsBySep_cons_sep d _ hd]
          have hlen : t.length ≤ n := by
            have hta : (a'.dropWhile (fun d => !isSep d)).length ≤ a'.length :=
              (List.dropWhile_sublist _).length_le
            rw [hdw] at hta
            simp only [List.length_cons] at hta
            omega
          rw [ih t hlen s b hs, List.cons_append]

/-- A separator-free non-empty word is its own (single-element) splitting. -/
theorem wordsBySep_word (w : List Char) (hne : w ≠ [])
    (hall : ∀ c ∈ w, isSep c = false) : wordsBySep w = [w] := by
  cases w with
  | nil => exact absurd rfl hne
  | cons c w' =>
    have hall' : ∀ d ∈ w', (fun d => !isSep d) d = true := by
      intro d hd
      simp [hall d (List.mem_cons_of_mem c hd)]
    rw [wordsBySep_cons_word c w' (hall c (List.mem_cons_self c w')),
      takeWhile_all _ w' hall', dropWhile_all _ w' hall', wordsBySep_nil]

/-- Splitting a space-joined word list splits each word independently. -/
theorem wordsBySep_intercalate :
    ∀ ws' : List (List Char),
      wordsBySep (List.intercalate [' '] ws') = (ws'.map wordsBySep).flatten := by
  intro ws'
  induction ws' with
  | nil => rw [intercalate_nil_words, wordsBySep_nil]; rfl
  | cons w rest ih =>
    cases rest with
    | nil =>
      rw [intercalate_single]
      simp
    | cons w' rest' =>
      rw [intercalate_cons_cons,
        wordsBySep_split w.length w le_rfl ' ' _ (by decide), ih]
      simp

/-- Separator-splitting refines whitespace-splitting. -/
theorem wordsBySep_eq_join :
    ∀ (n : Nat) (l : List Char), l.length ≤ n →
      wordsBySep l = ((wordsWs l).map wordsBySep).flatten := by
  intro n
  induction n with
  | zero =>
    intro l hl
    have : l = [] := List.eq_nil_of_length_eq_zero (Nat.le_zero.mp hl)
    subst this
    rw [wordsBySep_nil, wordsWs_nil]
    rfl
  | succ n ih =>
    intro l hl
    cases l with
    | nil => rw [wordsBySep_nil, wordsWs_nil]; rfl
    | cons c r =>
      simp only [List.length_cons] at hl
      cases hc : isWs c with
      | true =>
        have hcs : isSep c = true := by simp [isSep, hc]
        rw [wordsBySep_cons_sep c r hcs, wordsWs_cons_ws c r hc]
        exact ih r (by omega)
      | false =>
        rw [wordsWs_cons_word c r hc]
        have hsplit : (c :: r) = (c :: r.takeWhile (fun d => !isWs d))
            ++ r.dropWhile (fun d => !isWs d) := by
          rw [List.cons_append, List.takeWhile_append_dropWhile]
        cases hdw : r.dropWhile (fun d => !isWs d) with
        | nil =>
          rw [hdw] at hsplit
          conv_lhs => rw [hsplit]
          rw [List.append_nil, wordsWs_nil]
          simp
        | cons d dr =>
          have hd : isWs d = true := by
            have := dropWhile_head_not (fun d => !isWs d) r d dr hdw
            simpa using this
          have hds : isSep d = true := by simp [isSep, hd]
          rw [hdw] at hsplit
          conv_lhs => rw [hsplit]
          rw [show ((c :: r.takeWhile (fun d => !isWs d)) ++ d :: dr : List Char)
            = (c :: r.takeWhile (fun d => !isWs d)) ++ d :: dr from rfl,
            wordsBySep_split (c :: r.takeWhile (fun d => !isWs d)).length _ le_rfl d dr hds]
          have hlen : dr.length ≤ n := by
            have hta : (r.dropWhile (fun d => !isWs d)).length ≤ r.length :=
              (List.dropWhile_sublist _).length_le
            rw [hdw] at hta
            simp only [List.length_cons] at hta
            omega
          rw [ih dr hlen, wordsWs_cons_ws d dr hd]
          simp

-- ---------- lowercasing commutes with the cleaning pipeline (claim C8) ----------

theorem stripTagsGo_none_id : ∀ l : List Char, (∀ c ∈ l, c ≠ '<') →
    stripTagsGo none l = l := by
  intro l
  induction l with
  | nil => intro _; rfl
  | cons c r ih =>
    intro h
    show (if c = '<' then stripTagsGo (some ['<']) r else c :: stripTagsGo none r) = c :: r
    rw [if_neg (h c (List.mem_cons_self c r)),
      ih (fun d hd => h d (List.mem_cons_of_mem c hd))]

theorem stripTags_id (l : List Char) (h : '<' ∉ l) : stripTags l = l :=
  stripTagsGo_none_id l (fun c hc he => h (he ▸ hc))

theorem lowerChar_eq_lt_iff (c : Char) : lowerChar c = '<' ↔ c = '<' :=
  lowerChar_eq_iff_outside c '<' (by decide) (by decide)

theorem lowerChar_eq_gt_iff (c : Char) : lowerChar c = '>' ↔ c = '>' :=
  lowerChar_eq_iff_outside c '>' (by decide) (by decide)

theorem stripTagsGo_map_lower :
    ∀ (l : List Char) (m : Option (List Char)),
      (stripTagsGo m l).map lowerChar =
        stripTagsGo (m.map (List.map lowerChar)) (l.map lowerChar) := by
  intro l
  induction l with
  | nil =>
    intro m
    cases m with
    | none => rfl
    | some buf =>
      show (buf.reverse.map lowerChar) = (buf.map lowerChar).reverse
      rw [List.map_reverse]
  | cons c r ih =>
    intro m
    cases m with
    | none =>
      simp only [List.map_cons, Option.map_none', stripTagsGo]
      by_cases hc : c = '<'
      · rw [if_pos hc, if_pos (by rw [lowerChar_eq_lt_iff c]; exact hc)]
        have := ih (some ['<'])
        simpa using this
      · rw [if_neg hc, if_neg (fun he => hc ((lowerChar_eq_lt_iff c).mp he))]
        simp only [List.map_cons]
        have := ih none
        simp only [Option.map_none'] at this
        rw [this]
    | some buf =>
      simp only [List.map_cons, Option.map_some', stripTagsGo]
      by_cases hd : c = '>'
      · subst hd
        have hnone := ih none
        simp only [Option.map_none'] at hnone
        rw [if_pos (rfl : ('>' : Char) = '>'),
          if_pos (show lowerChar '>' = '>' from by decide), List.length_map]
        by_cases hlen : 2 ≤ buf.length
        · rw [if_pos hlen, if_pos hlen]
          simp only [List.map_cons]
          rw [show lowerChar ' ' = ' ' from by decide, hnone]
        · rw [if_neg hlen, if_neg hlen]
          simp only [List.map_append, List.map_cons, List.map_reverse]
          rw [show lowerChar '>' = '>' from by decide, hnone]
      · rw [if_neg hd, if_neg (fun he => hd ((lowerChar_eq_gt_iff c).mp he))]
        have := ih (some (c :: buf))
        simpa using this

theorem subWsAux_map_lower :
    ∀ (l : List Char) (b : Bool),
      (subWsAux b l).map lowerChar = subWsAux b (l.map lowerChar) := by
  intro l
  induction l with
  | nil => intro b; rfl
  | cons c r ih =>
    intro b
    cases hc : isWs c with
    | true =>
      have hc' : isWs (lowerChar c) = true := by rw [isWs_lowerChar]; exact hc
      cases b with
      | true =>
        rw [subWsAux_cons_ws_true c r hc]
        simp only [List.map_cons]
        rw [subWsAux_cons_ws_true (lowerChar c) _ hc']
        exact ih true
      | false =>
        rw [subWsAux_cons_ws_false c r hc]
        simp only [List.map_cons]
        rw [subWsAux_cons_ws_false (lowerChar c) _ hc',
          show lowerChar ' ' = ' ' from by decide, ih true]
    | false =>
      have hc' : isWs (lowerChar c) = false := by rw [isWs_lowerChar]; exact hc
      rw [subWsAux_cons_word b c r hc]
      simp only [List.map_cons]
      rw [subWsAux_cons_word b (lowerChar c) _ hc', ih false]

theorem pyStrip_map_lower (l : List Char) :
    (pyStrip l).map lowerChar = pyStrip (l.map lowerChar) := by
  have hcomp : (isWs ∘ lowerChar) = isWs := funext isWs_lowerChar
  unfold pyStrip
  rw [List.dropWhile_map, hcomp, ← List.map_reverse, List.dropWhile_map, hcomp,
    ← List.map_reverse]

theorem clean_text_map_lower (t : List Char) :
    (clean_text t).map lowerChar = clean_text (t.map lowerChar) := by
  unfold clean_text subWs stripTags
  rw [pyStrip_map_lower, subWsAux_map_lower,
    show (stripTagsGo none t).map lowerChar = stripTagsGo none (t.map lowerChar) from
      stripTagsGo_map_lower t none]

-- ---------- character tracking through normalization (claim C8) ----------

theorem mem_subWsAux :
    ∀ (l : List Char) (b : Bool) (c : Char), c ∈ subWsAux b l → c = ' ' ∨ c ∈ l := by
  intro l
  induction l with
  | nil => intro b c h; simp [subWsAux] at h
  | cons d r ih =>
    intro b c h
    cases hd : isWs d with
    | true =>
      cases b with
      | true =>
        rw [subWsAux_cons_ws_true d r hd] at h
        rcases ih true c h with he | hm
        · exact Or.inl he
        · exact Or.inr (List.mem_cons_of_mem d hm)
      | false =>
        rw [subWsAux_cons_ws_false d r hd] at h
        rcases List.mem_cons.mp h with he | hm
        · exact Or.inl he
        · rcases ih true c hm with he | hm'
          · exact Or.inl he
          · exact Or.inr (List.mem_cons_of_mem d hm')
    | false =>
      rw [subWsAux_cons_word b d r hd] at h
      rcases List.mem_cons.mp h with he | hm
      · exact Or.inr (he ▸ List.mem_cons_self d r)
      · rcases ih false c hm with he | hm'
        · exact Or.inl he
        · exact Or.inr (List.mem_cons_of_mem d hm')

theorem mem_pyStrip (l : List Char) (c : Char) (h : c ∈ pyStrip l) : c ∈ l := by
  unfold pyStrip at h
  rw [List.mem_reverse] at h
  have h1 := (List.dropWhile_sublist isWs).subset h
  rw [List.mem_reverse] at h1
  exact (List.dropWhile_sublist isWs).subset h1

theorem mem_subPunct_not_punct (x : List Char) (c : Char) (h : c ∈ subPunct x) :
    c ∉ punctChars := by
  obtain ⟨d, _, he⟩ := List.mem_map.mp h
  by_cases hd : d ∈ punctChars
  · rw [if_pos hd] at he
    rw [← he]
    decide
  · rw [if_neg hd] at he
    rw [← he]
    exact hd

theorem mem_subPunct_lower_fixed (x : List Char) (c : Char)
    (hx : ∀ d ∈ x, lowerChar d = d) (h : c ∈ subPunct x) : lowerChar c = c := by
  obtain ⟨d, hd, he⟩ := List.mem_map.mp h
  by_cases hdp : d ∈ punctChars
  · rw [if_pos hdp] at he
    rw [← he]
    decide
  · rw [if_neg hdp] at he
    rw [← he]
    exact hx d hd

theorem normalize_chars (t : List Char) (c : Char) (h : c ∈ normalize_title t) :
    c ∉ punctChars ∧ lowerChar c = c := by
  unfold normalize_title subWs at h
  have h1 := mem_pyStrip _ _ h
  rcases mem_subWsAux _ _ _ h1 with he | h2
  · subst he
    exact ⟨by decide, by decide⟩
  · refine ⟨mem_subPunct_not_punct _ _ h2, mem_subPunct_lower_fixed _ _ ?_ h2⟩
    intro d hd
    obtain ⟨e, _, rfl⟩ := List.mem_map.mp hd
    exact lowerChar_idem e

theorem flatten_map_singleton :
    ∀ L : List (List Char), (∀ w ∈ L, wordsBySep w = [w]) →
      (L.map wordsBySep).flatten = L := by
  intro L
  induction L with
  | nil => intro _; rfl
  | cons w rest ih =>
    intro h
    rw [List.map_cons, List.flatten_cons, h w (List.mem_cons_self w rest),
      ih (fun w' hw' => h w' (List.mem_cons_of_mem w hw'))]
    rfl

-- ---------- the normalization characterization (claim C8) ----------

/-- The function `normalize_title` always produces the space-joined, case-folded
separator-words of the cleaned title. -/
theorem normalize_title_eq (t : List Char) :
    normalize_title t =
      List.intercalate [' '] (wordsBySep ((clean_text t).map lowerChar)) := by
  unfold normalize_title
  rw [pyStrip_subWs, wordsWs_subPunct ((clean_text t).map lowerChar).length _ le_rfl]

/-- On a title without `<` (no HTML-tag stripping applies), the key is the
space-joined, case-folded separator-words of the raw title. -/
theorem normalize_title_eq_words (t : List Char) (h : '<' ∉ t) :
    normalize_title t = List.intercalate [' '] (wordsBySep (t.map lowerChar)) := by
  rw [normalize_title_eq]
  congr 1
  have hct : clean_text t = pyStrip (subWs t) := by
    unfold clean_text
    rw [stripTags_id t h]
  rw [hct, pyStrip_map_lower, show (subWs t).map lowerChar = subWs (t.map lowerChar) from
    subWsAux_map_lower t false, pyStrip_subWs, wordsBySep_intercalate,
    ← wordsBySep_eq_join (t.map lowerChar).length _ le_rfl]

/-- Normalization is idempotent. -/
theorem normalize_title_idem (t : List Char) :
    normalize_title (normalize_title t) = normalize_title t := by
  have hchars := normalize_chars t
  have hlt : '<' ∉ normalize_title t := fun hin => (hchars '<' hin).1 (by decide)
  rw [normalize_title_eq_words _ hlt]
  have hfix : (normalize_title t).map lowerChar = normalize_title t := by
    have h : ∀ c ∈ normalize_title t, lowerChar c = id c := fun c hc => (hchars c hc).2
    rw [List.map_congr_left h, List.map_id]
  rw [hfix]
  conv_lhs => rw [normalize_title_eq t]
  rw [wordsBySep_intercalate]
  conv_rhs => rw [normalize_title_eq t]
  congr 1
  apply flatten_map_singleton
  intro w hw
  have hsound := wordsBySep_sound ((clean_text t).map lowerChar).length _ le_rfl w hw
  exact wordsBySep_word w hsound.1 hsound.2

-- ---------- claim C8 ----------

/-- C8 counterexample: the titles "a.b" and "ab" differ only in punctuation
(their case-, punctuation- and whitespace-ignoring cores coincide), yet they
normalize to different keys — `normalize_title` turns the period into a
space ("a b") rather than deleting it. -/
theorem c8_counterexample :
    titleCore "a.b".toList = titleCore "ab".toList
    ∧ normalize_title "a.b".toList ≠ normalize_title "ab".toList := by
  decide

/-- C8 (amended): title normalization is idempotent; two titles equal after
case-folding normalize to the same key; and two tag-free titles with the
same case-folded separator-words (words delimited by whitespace or by the
stripped punctuation class) normalize to the same key. Punctuation is
collapsed only as a separator: a stripped-class character becomes a space
rather than vanishing, and characters outside the class (e.g. a hyphen) are
kept, so titles differing by punctuation inside a word can get different
keys. -/
theorem c8_normalization :
    (∀ t, normalize_title (normalize_title t) = normalize_title t)
    ∧ (∀ t₁ t₂, t₁.map lowerChar = t₂.map lowerChar →
        normalize_title t₁ = normalize_title t₂)
    ∧ (∀ t₁ t₂, '<' ∉ t₁ → '<' ∉ t₂ →
        wordsBySep (t₁.map lowerChar) = wordsBySep (t₂.map lowerChar) →
        normalize_title t₁ = normalize_title t₂) := by
  refine ⟨normalize_title_idem, ?_, ?_⟩
  · intro t₁ t₂ h
    rw [normalize_title_eq, normalize_title_eq, clean_text_map_lower,
      clean_text_map_lower, h]
  · intro t₁ t₂ h1 h2 hw
    rw [normalize_title_eq_words t₁ h1, normalize_title_eq_words t₂ h2, hw]

/-- Witness for C8 (amended) at concrete titles: an idempotence instance, a
case-only difference, and a separator-only difference (space vs period). -/
theorem c8_normalization_witness :
    normalize_title (normalize_title "  The BEST: Model!  ".toList)
      = normalize_title "  The BEST: Model!  ".toList
    ∧ normalize_title "AB c".toList = normalize_title "ab C".toList
    ∧ normalize_title "a b".toList = normalize_title "a.b".toList := by
  have hw : wordsBySep ("a b".toList.map lowerChar)
      = wordsBySep ("a.b".toList.map lowerChar) := by
    show wordsBySep ['a', ' ', 'b'] = wordsBySep ['a', '.', 'b']
    rw [wordsBySep_cons_word 'a' [' ', 'b'] (by decide),
      wordsBySep_cons_word 'a' ['.', 'b'] (by decide),
      show ([' ', 'b'] : List Char).takeWhile (fun d => !isSep d) = [] from by decide,
      show ([' ', 'b'] : List Char).dropWhile (fun d => !isSep d) = [' ', 'b'] from by decide,
      show (['.', 'b'] : List Char).takeWhile (fun d => !isSep d) = [] from by decide,
      show (['.', 'b'] : List Char).dropWhile (fun d => !isSep d) = ['.', 'b'] from by decide,
      wordsBySep_cons_sep ' ' ['b'] (by decide), wordsBySep_cons_sep '.' ['b'] (by decide)]
  exact ⟨c8_normalization.1 _,
    c8_normalization.2.1 "AB c".toList "ab C".toList (by decide),
    c8_normalization.2.2 "a b".toList "a.b".toList (by decide) (by decide) hw⟩

end Frontier
